import Mathlib

/-!
Verification of the Move core-types text parser (`parser.rs`): a tokenizer
and recursive-descent parser turning text into `TypeTag` / `StructTag` /
`TransactionArgument` values.

The tokenizer and grammar routines below are a shallow embedding of the
source file.  Strings are modelled as `List Char` (all grammar-relevant
characters are ASCII); machine integers carried by values are `Nat` with
explicit range checks, matching the overflow behaviour of the source.
Recursion in the source that is bounded by consumed input or by the
nesting-depth guard is given an explicit fuel parameter; the entry points
supply fuel that is provably sufficient, so the fuel branch is unreachable
from them.

External collaborators of the source file (the `hex` crate, account
addresses, identifiers, the nesting-limit constant and the canonical
`Display` rendering) are not part of the source file; they are modelled
from the spec where needed, each marked `Modelled from the spec:` in its
doc comment.
-/

/-! ## Character classes -/

/-- Rust `char::is_ascii_hexdigit`. -/
def is_ascii_hexdigit (c : Char) : Bool :=
  c.isDigit || ('a' ≤ c && c ≤ 'f') || ('A' ≤ c && c ≤ 'F')

/-- Rust `char::is_ascii_whitespace`: space, tab, newline, form feed, carriage return. -/
def is_ascii_whitespace (c : Char) : Bool :=
  c = ' ' || c = '\t' || c = '\n' || c = '\x0c' || c = '\r'

/-- Modelled from the spec: the identifier-character predicate
`identifier::is_valid_identifier_char` of the external identifier
collaborator: an ASCII letter, an ASCII digit, or an underscore. -/
def is_valid_identifier_char (c : Char) : Bool :=
  c.isAlphanum || c = '_'

/-! ## Tokens -/

/-- The lexical token type of the source (`enum Token`), with string
payloads as `List Char`. -/
inductive Token where
  | U8Type
  | U64Type
  | U128Type
  | BoolType
  | AddressType
  | VectorType
  | SignerType
  | Whitespace (s : List Char)
  | Name (s : List Char)
  | Address (s : List Char)
  | U8 (s : List Char)
  | U64 (s : List Char)
  | U128 (s : List Char)
  | Bytes (s : List Char)
  | True
  | False
  | ColonColon
  | Lt
  | Gt
  | Comma
  | EOF
deriving DecidableEq

/-- `Token::is_whitespace`. -/
def Token.is_whitespace : Token → Bool
  | .Whitespace _ => true
  | _ => false

/-- The `{:?}` (derive Debug) rendering of a token, used in error messages. -/
def Token.dbg : Token → String
  | .U8Type => "U8Type"
  | .U64Type => "U64Type"
  | .U128Type => "U128Type"
  | .BoolType => "BoolType"
  | .AddressType => "AddressType"
  | .VectorType => "VectorType"
  | .SignerType => "SignerType"
  | .Whitespace s => "Whitespace(\"" ++ String.mk s ++ "\")"
  | .Name s => "Name(\"" ++ String.mk s ++ "\")"
  | .Address s => "Address(\"" ++ String.mk s ++ "\")"
  | .U8 s => "U8(\"" ++ String.mk s ++ "\")"
  | .U64 s => "U64(\"" ++ String.mk s ++ "\")"
  | .U128 s => "U128(\"" ++ String.mk s ++ "\")"
  | .Bytes s => "Bytes(\"" ++ String.mk s ++ "\")"
  | .True => "True"
  | .False => "False"
  | .ColonColon => "ColonColon"
  | .Lt => "Lt"
  | .Gt => "Gt"
  | .Comma => "Comma"
  | .EOF => "EOF"

/-- `name_token`: classify a completed identifier run as a keyword or a
generic name (the lookup table of the source). -/
def name_token (s : List Char) : Token :=
  if s = ['u', '8'] then .U8Type
  else if s = ['u', '6', '4'] then .U64Type
  else if s = ['u', '1', '2', '8'] then .U128Type
  else if s = ['b', 'o', 'o', 'l'] then .BoolType
  else if s = ['a', 'd', 'd', 'r', 'e', 's', 's'] then .AddressType
  else if s = ['v', 'e', 'c', 't', 'o', 'r'] then .VectorType
  else if s = ['t', 'r', 'u', 'e'] then .True
  else if s = ['f', 'a', 'l', 's', 'e'] then .False
  else if s = ['s', 'i', 'g', 'n', 'e', 'r'] then .SignerType
  else .Name s

/-! ## Numeric-literal sub-lexer (`next_number`) -/

/-- The final suffix dispatch of `next_number` (the `match suffix.as_str()`
at the end of the suffix loop): the consumed length is the digit text plus
the suffix, and only the exact suffixes `u8`, `u64`, `u128` are accepted. -/
def token_of_suffix (num suffix : List Char) : Except String (Token × Nat) :=
  let len := num.length + suffix.length
  if suffix = ['u', '8'] then .ok (.U8 num, len)
  else if suffix = ['u', '6', '4'] then .ok (.U64 num, len)
  else if suffix = ['u', '1', '2', '8'] then .ok (.U128 num, len)
  else .error "invalid suffix"

/-- The inner suffix-collection loop of `next_number`: consume ASCII
alphanumeric characters into `suffix`, then dispatch.  (The source checks
`is_ascii_alphanumeric` here; `Char.isAlphanum` is the same predicate on
the ASCII range, which is the only range a suffix character can come from
in the grammar under verification.) -/
def suffix_loop (num suffix : List Char) : List Char → Except String (Token × Nat)
  | c :: cs =>
    if c.isAlphanum then suffix_loop num (suffix ++ [c]) cs
    else token_of_suffix num suffix
  | [] => token_of_suffix num suffix

/-- The outer digit loop of `next_number`: digits extend the literal body;
the first non-digit alphanumeric character switches to suffix collection;
anything else ends the literal, which defaults to the 64-bit kind. -/
def digit_loop (num : List Char) : List Char → Except String (Token × Nat)
  | c :: cs =>
    if c.isDigit then digit_loop (num ++ [c]) cs
    else if c.isAlphanum then suffix_loop num [c] cs
    else .ok (.U64 num, num.length)
  | [] => .ok (.U64 num, num.length)

/-- `next_number` of the source: lex a numeric literal given its first
digit and the remaining characters. -/
def next_number (initial : Char) (rest : List Char) : Except String (Token × Nat) :=
  digit_loop [initial] rest

/-! ## Tokenizer (`next_token`, `tokenize`) -/

/-- The byte-string content loop shared by the `b"` and `x"` branches of
`next_token`: consume characters satisfying `pred` up to a closing quote;
end of input or a character failing `pred` is an error. -/
def scan_bytes (pred : Char → Bool) : List Char → Except String (List Char)
  | [] => .error "unrecognized token"
  | c :: cs =>
    if c = '"' then .ok []
    else if pred c then (scan_bytes pred cs).map (fun r => c :: r)
    else .error "unrecognized token"

/-- The hex-address branch of `next_token`, entered after `0x`/`0X`: at
least one hex digit must follow, then further hex digits are consumed
greedily; the token keeps a lowercased `0x` prefix. -/
def address_scan (rest : List Char) : Except String (Token × Nat) :=
  match rest with
  | d :: rest1 =>
    if is_ascii_hexdigit d then
      let digits := rest1.takeWhile is_ascii_hexdigit
      let r := '0' :: 'x' :: d :: digits
      .ok (.Address r, r.length)
    else .error "unrecognized token"
  | [] => .error "unrecognized token"

/-- Modelled from the spec: `hex::encode` of the external `hex` crate on
an ASCII string: each byte becomes two lowercase hex digits. -/
def to_hex_digit (n : Nat) : Char :=
  if n < 10 then Char.ofNat (48 + n) else Char.ofNat (87 + n)

/-- Modelled from the spec: `hex::encode` (bytes of an ASCII string to
lowercase hex text). -/
def hex_encode (s : List Char) : List Char :=
  s.foldr (fun c acc => to_hex_digit (c.toNat / 16) :: to_hex_digit (c.toNat % 16) :: acc) []

/-- `next_token` of the source: produce at most one token and the number
of characters consumed, `none` at end of input, or a lexical error. -/
def next_token : List Char → Except String (Option (Token × Nat))
  | [] => .ok none
  | c :: cs =>
    if c = '<' then .ok (some (.Lt, 1))
    else if c = '>' then .ok (some (.Gt, 1))
    else if c = ',' then .ok (some (.Comma, 1))
    else if c = ':' then
      match cs with
      | ':' :: _ => .ok (some (.ColonColon, 2))
      | _ => .error "unrecognized token"
    else if c = '0' ∧ (cs.head? = some 'x' ∨ cs.head? = some 'X') then
      (address_scan cs.tail).map some
    else if c.isDigit then (next_number c cs).map some
    else if c = 'b' ∧ cs.head? = some '"' then
      (scan_bytes (fun ch => ch.toNat < 128) cs.tail).map
        (fun r => some (.Bytes (hex_encode r), r.length + 3))
    else if c = 'x' ∧ cs.head? = some '"' then
      (scan_bytes is_ascii_hexdigit cs.tail).map
        (fun r => some (.Bytes r, r.length + 3))
    else if is_ascii_whitespace c then
      let r := c :: cs.takeWhile is_ascii_whitespace
      .ok (some (.Whitespace r, r.length))
    else if c.isAlpha then
      let r := c :: cs.takeWhile is_valid_identifier_char
      .ok (some (name_token r, r.length))
    else .error "unrecognized token"

/-- `tokenize` with an explicit fuel bound on the number of produced
tokens.  Every token consumes at least one character, so fuel
`s.length + 1` (used by `tokenize`) always suffices. -/
def tokenizeF : Nat → List Char → Except String (List Token)
  | 0, _ => .error "tokenize fuel exhausted"
  | fuel + 1, s =>
    match next_token s with
    | .error e => .error e
    | .ok none => .ok []
    | .ok (some (tok, n)) => (tokenizeF fuel (s.drop n)).map (fun v => tok :: v)

/-- `tokenize` of the source: repeatedly apply `next_token`, advancing by
the consumed length. -/
def tokenize (s : List Char) : Except String (List Token) :=
  tokenizeF (s.length + 1) s

/-! ## Value types -/

/-- Modelled from the spec: the fixed-width account identifier of the
external address collaborator (16 bytes, thus a value below `16 ^ 32`),
represented by its numeric value so that differently padded hex literals
of the same account compare equal, as they do for the collaborator. -/
structure AccountAddress where
  value : Nat
deriving DecidableEq

/-- Modelled from the spec: a validated identifier of the external
identifier collaborator (its character data). -/
structure Identifier where
  value : List Char
deriving DecidableEq

/-- The numeric value of one hex digit (both cases). -/
def hex_val (c : Char) : Nat :=
  if c.isDigit then c.toNat - 48
  else if 'a' ≤ c && c ≤ 'f' then c.toNat - 87
  else if 'A' ≤ c && c ≤ 'F' then c.toNat - 55
  else 0

/-- The numeric value of a string of hex digits, most significant first. -/
def nat_of_hex (s : List Char) : Nat :=
  s.foldl (fun acc c => 16 * acc + hex_val c) 0

/-- Modelled from the spec: `AccountAddress::from_hex_literal`: requires a
`0x` prefix, then at most 32 hex digits (shorter literals are left-padded
by the collaborator, which the numeric value reading already captures). -/
def from_hex_literal (s : List Char) : Except String AccountAddress :=
  if s.take 2 = ['0', 'x'] then
    let digits := s.drop 2
    if digits.length ≤ 32 then
      if digits.all is_ascii_hexdigit then .ok ⟨nat_of_hex digits⟩
      else .error "invalid hex character in address literal"
    else .error "invalid address literal length"
  else .error "address literal must start with 0x"

/-- Modelled from the spec: `Identifier::new` of the external identifier
collaborator: nonempty, first character a letter or underscore, all
characters identifier characters. -/
def Identifier.new (s : List Char) : Except String Identifier :=
  match s with
  | [] => .error "invalid identifier"
  | c :: _ =>
    if (c.isAlpha || c = '_') && s.all is_valid_identifier_char then .ok ⟨s⟩
    else .error "invalid identifier"

/-- `TypeTag` of the source, with the struct variant's fields inlined
(the source boxes a `StructTag`; `StructTag` below packages the same four
fields). -/
inductive TypeTag where
  | U8
  | U64
  | U128
  | Bool
  | Address
  | Signer
  | Vector (t : TypeTag)
  | Struct (address : AccountAddress) (module : Identifier) (name : Identifier)
      (type_params : List TypeTag)

/-- `StructTag` of the source. -/
structure StructTag where
  address : AccountAddress
  module : Identifier
  name : Identifier
  type_params : List TypeTag

/-- `TransactionArgument` of the source; numeric payloads are `Nat`
values already checked against their width by the parser. -/
inductive TransactionArgument where
  | U8 (v : Nat)
  | U64 (v : Nat)
  | U128 (v : Nat)
  | Bool (b : Bool)
  | Address (a : AccountAddress)
  | U8Vector (bs : List Nat)

/-- Rust `str::parse` for an unsigned integer type with exclusive upper
bound `bound`: digits only, no silent truncation — a value at or above
the bound is an overflow error. -/
def parse_uint (bound : Nat) (s : List Char) : Except String Nat :=
  match s with
  | [] => .error "cannot parse integer from empty string"
  | _ =>
    if s.all Char.isDigit then
      let v := s.foldl (fun acc c => 10 * acc + (c.toNat - 48)) 0
      if v < bound then .ok v else .error "number too large to fit in target type"
    else .error "invalid digit found in string"

/-- Modelled from the spec: `hex::decode` of the external `hex` crate:
pairs of hex digits to bytes; an odd count or a non-hex character is an
error. -/
def hex_decode : List Char → Except String (List Nat)
  | [] => .ok []
  | [_] => .error "hex decode: odd number of digits"
  | c1 :: c2 :: cs =>
    if is_ascii_hexdigit c1 && is_ascii_hexdigit c2 then
      (hex_decode cs).map (fun bs => (16 * hex_val c1 + hex_val c2) :: bs)
    else .error "hex decode: invalid character"

/-! ## Token stream and grammar routines -/

/-- `Parser::next`: advance and return the next token; past the synthetic
end marker this is the internal-consistency error of the source. -/
def Parser.next : List Token → Except String (Token × List Token)
  | [] => .error "out of tokens, this should not happen"
  | t :: ts => .ok (t, ts)

/-- `Parser::peek`. -/
def Parser.peek (ts : List Token) : Option Token :=
  ts.head?

/-- `Parser::consume`: next token must equal `tok` exactly. -/
def Parser.consume (tok : Token) (ts : List Token) : Except String (List Token) := do
  let (t, ts) ← Parser.next ts
  if t = tok then .ok ts
  else .error ("expected token " ++ Token.dbg tok ++ ", got " ++ Token.dbg t)

/-- The loop body of `Parser::parse_comma_list`, entered when the next
token is not the terminator: parse an item, then stop at the terminator,
or consume a mandatory comma (stopping after it at the terminator only
when trailing commas were opted in).  The fuel bounds the number of
items; each iteration consumes at least one token for every item parser
of the source, so the callers' fuel `ts.length + 1` suffices. -/
def Parser.parse_comma_list_loop (fuel : Nat)
    (parse_list_item : List Token → Except String (R × List Token))
    (end_token : Token) (allow_trailing_comma : Bool) (ts : List Token) :
    Except String (List R × List Token) :=
  match fuel with
  | 0 => .error "comma list fuel exhausted"
  | fuel + 1 => do
    let (x, ts) ← parse_list_item ts
    if Parser.peek ts = some end_token then .ok ([x], ts)
    else do
      let ts ← Parser.consume .Comma ts
      if Parser.peek ts = some end_token ∧ allow_trailing_comma = true then .ok ([x], ts)
      else
        (Parser.parse_comma_list_loop fuel parse_list_item end_token allow_trailing_comma ts).map
          (fun r => (x :: r.1, r.2))

/-- `Parser::parse_comma_list`: an empty list when the next token is
already the terminator, else the loop above. -/
def Parser.parse_comma_list
    (parse_list_item : List Token → Except String (R × List Token))
    (end_token : Token) (allow_trailing_comma : Bool) (ts : List Token) :
    Except String (List R × List Token) :=
  if Parser.peek ts = some end_token then .ok ([], ts)
  else Parser.parse_comma_list_loop (ts.length + 1) parse_list_item end_token allow_trailing_comma ts

/-- `Parser::parse_string`: exactly one `Name` token. -/
def Parser.parse_string (ts : List Token) : Except String (List Char × List Token) := do
  let (t, ts) ← Parser.next ts
  match t with
  | .Name s => .ok (s, ts)
  | tok => .error ("unexpected token " ++ Token.dbg tok ++ ", expected string")

/-- Modelled from the spec: `MAX_TYPE_TAG_NESTING` of `safe_serialize`
(the configured maximum nesting depth, defined outside the source file).
The source's own tests pin the value to 13 or 14: the valid struct tag
`0x1::Diem::Diem<vector<...` of `test_parse_valid_struct_tag` drives its
innermost `parse_type_tag` call to depth 12, so the guard
`depth >= MAX_TYPE_TAG_NESTING` demands a constant of at least 13, while
the failing chain of 14 nested vectors in `test_type_tag` (innermost call
at depth 14) demands at most 14.  Modelled as 14, under which that
14-vector chain is exactly the minimal failing chain. -/
def MAX_TYPE_TAG_NESTING : Nat := 14

/-- `Parser::parse_type_tag` with an explicit fuel parameter bounding the
recursion depth.  The depth guard of the source fails any call at depth
`MAX_TYPE_TAG_NESTING` or beyond, and every recursive call increases the
depth by one, so the entry points' fuel `MAX_TYPE_TAG_NESTING + 1` is
always sufficient and the fuel branch is unreachable from them. -/
def Parser.parse_type_tagF : Nat → Nat → List Token → Except String (TypeTag × List Token)
  | fuel, depth, ts =>
    if MAX_TYPE_TAG_NESTING ≤ depth then
      .error ("Exceeded TypeTag nesting limit during parsing: " ++ Nat.repr depth)
    else
      match fuel with
      | 0 => .error "type tag fuel exhausted"
      | fuel + 1 => do
        let (t, ts) ← Parser.next ts
        match t with
        | .U8Type => .ok (.U8, ts)
        | .U64Type => .ok (.U64, ts)
        | .U128Type => .ok (.U128, ts)
        | .BoolType => .ok (.Bool, ts)
        | .AddressType => .ok (.Address, ts)
        | .SignerType => .ok (.Signer, ts)
        | .VectorType => do
          let ts ← Parser.consume .Lt ts
          let (ty, ts) ← Parser.parse_type_tagF fuel (depth + 1) ts
          let ts ← Parser.consume .Gt ts
          .ok (.Vector ty, ts)
        | .Address addr => do
          let ts ← Parser.consume .ColonColon ts
          let (t2, ts) ← Parser.next ts
          match t2 with
          | .Name module => do
            let ts ← Parser.consume .ColonColon ts
            let (t3, ts) ← Parser.next ts
            match t3 with
            | .Name name => do
              let (ty_args, ts) ←
                if Parser.peek ts = some Token.Lt then do
                  let (_, ts) ← Parser.next ts
                  let (args, ts2) ←
                    Parser.parse_comma_list (Parser.parse_type_tagF fuel (depth + 1)) .Gt true ts
                  let ts3 ← Parser.consume .Gt ts2
                  pure (args, ts3)
                else pure (([] : List TypeTag), ts)
              let a ← from_hex_literal addr
              let m ← Identifier.new module
              let n ← Identifier.new name
              .ok (.Struct a m n ty_args, ts)
            | t3 => .error ("expected name, got " ++ Token.dbg t3)
          | t2 => .error ("expected name, got " ++ Token.dbg t2)
        | tok => .error ("unexpected token " ++ Token.dbg tok ++ ", expected type tag")

/-- `Parser::parse_transaction_argument`: single-token dispatch. -/
def Parser.parse_transaction_argument (ts : List Token) :
    Except String (TransactionArgument × List Token) := do
  let (t, ts) ← Parser.next ts
  match t with
  | .U8 s => do
    let v ← parse_uint 256 s
    .ok (.U8 v, ts)
  | .U64 s => do
    let v ← parse_uint 18446744073709551616 s
    .ok (.U64 v, ts)
  | .U128 s => do
    let v ← parse_uint 340282366920938463463374607431768211456 s
    .ok (.U128 v, ts)
  | .True => .ok (.Bool true, ts)
  | .False => .ok (.Bool false, ts)
  | .Address addr => do
    let a ← from_hex_literal addr
    .ok (.Address a, ts)
  | .Bytes s => do
    let bs ← hex_decode s
    .ok (.U8Vector bs, ts)
  | tok => .error ("unexpected token " ++ Token.dbg tok ++ ", expected transaction argument")

/-! ## Entry points -/

/-- The shared entry pipeline `parse` of the source: tokenize, discard
whitespace tokens, append the end-of-input marker, run one grammar
routine, then require the end-of-input marker. -/
def parse (s : List Char) (f : List Token → Except String (A × List Token)) :
    Except String A := do
  let toks ← tokenize s
  let toks := toks.filter (fun tok => !tok.is_whitespace) ++ [Token.EOF]
  let (res, rest) ← f toks
  let _ ← Parser.consume Token.EOF rest
  .ok res

/-- `parse_string_list`. -/
def parse_string_list (s : String) : Except String (List (List Char)) :=
  parse s.data (fun ts => Parser.parse_comma_list Parser.parse_string .EOF true ts)

/-- `parse_type_tags`. -/
def parse_type_tags (s : String) : Except String (List TypeTag) :=
  parse s.data (fun ts =>
    Parser.parse_comma_list (Parser.parse_type_tagF (MAX_TYPE_TAG_NESTING + 1) 0) .EOF true ts)

/-- `parse_type_tag`. -/
def parse_type_tag (s : String) : Except String TypeTag :=
  parse s.data (Parser.parse_type_tagF (MAX_TYPE_TAG_NESTING + 1) 0)

/-- `parse_transaction_arguments`. -/
def parse_transaction_arguments (s : String) : Except String (List TransactionArgument) :=
  parse s.data (fun ts =>
    Parser.parse_comma_list Parser.parse_transaction_argument .EOF true ts)

/-- `parse_transaction_argument`. -/
def parse_transaction_argument (s : String) : Except String TransactionArgument :=
  parse s.data Parser.parse_transaction_argument

/-- `parse_struct_tag`: parse a type tag, wrapping any failure with the
original text, and reject a non-struct result. -/
def parse_struct_tag (s : String) : Except String StructTag :=
  match parse s.data (Parser.parse_type_tagF (MAX_TYPE_TAG_NESTING + 1) 0) with
  | .error e => .error ("invalid struct tag: " ++ s ++ ", " ++ e)
  | .ok (TypeTag.Struct a m n tp) => .ok ⟨a, m, n, tp⟩
  | .ok _ => .error ("invalid struct tag: " ++ s)

/-! ## Character-class facts -/

theorem char_ne_of_toNat_ne {a b : Char} (h : a.toNat ≠ b.toNat) : a ≠ b :=
  fun e => h (congrArg Char.toNat e)

theorem isAlpha_iff {c : Char} : c.isAlpha = true ↔
    (65 ≤ c.toNat ∧ c.toNat ≤ 90) ∨ (97 ≤ c.toNat ∧ c.toNat ≤ 122) := by
  simp only [Char.isAlpha, Char.isUpper, Char.isLower, Bool.or_eq_true, Bool.and_eq_true,
    decide_eq_true_eq]
  exact Iff.rfl

theorem isDigit_iff {c : Char} : c.isDigit = true ↔ 48 ≤ c.toNat ∧ c.toNat ≤ 57 := by
  simp only [Char.isDigit, Bool.and_eq_true, decide_eq_true_eq]
  exact Iff.rfl

theorem isAlphanum_iff {c : Char} : c.isAlphanum = true ↔
    (48 ≤ c.toNat ∧ c.toNat ≤ 57) ∨ (65 ≤ c.toNat ∧ c.toNat ≤ 90) ∨
      (97 ≤ c.toNat ∧ c.toNat ≤ 122) := by
  simp only [Char.isAlphanum, Bool.or_eq_true, isAlpha_iff, isDigit_iff]
  tauto

theorem ws_toNat {c : Char} (h : is_ascii_whitespace c = true) :
    c.toNat = 32 ∨ c.toNat = 9 ∨ c.toNat = 10 ∨ c.toNat = 12 ∨ c.toNat = 13 := by
  simp only [is_ascii_whitespace, Bool.or_eq_true, decide_eq_true_eq] at h
  rcases h with (((rfl | rfl) | rfl) | rfl) | rfl <;> decide

/-! ## Whitespace-only inputs -/

theorem takeWhile_all_eq {p : Char → Bool} :
    ∀ xs : List Char, (∀ x ∈ xs, p x = true) → xs.takeWhile p = xs
  | [], _ => rfl
  | x :: xs, h => by
    simp only [List.takeWhile, h x (by simp)]
    exact congrArg (x :: ·) (takeWhile_all_eq xs (fun y hy => h y (by simp [hy])))

theorem tokenizeF_nil (fuel : Nat) (h : 1 ≤ fuel) : tokenizeF fuel [] = .ok [] := by
  cases fuel with
  | zero => omega
  | succ fuel => rfl

theorem tokenize_ws_only (s : List Char) (hne : s ≠ [])
    (hws : ∀ c ∈ s, is_ascii_whitespace c = true) :
    tokenize s = .ok [Token.Whitespace s] := by
  cases s with
  | nil => exact absurd rfl hne
  | cons c cs =>
    have hcws : is_ascii_whitespace c = true := hws c (by simp)
    have hc := ws_toNat hcws
    have e1 : ('<').toNat = 60 := rfl
    have e2 : ('>').toNat = 62 := rfl
    have e3 : (',').toNat = 44 := rfl
    have e4 : (':').toNat = 58 := rfl
    have e5 : ('0').toNat = 48 := rfl
    have e7 : ('b').toNat = 98 := rfl
    have e8 : ('x').toNat = 120 := rfl
    have h1 : c ≠ '<' := char_ne_of_toNat_ne (by omega)
    have h2 : c ≠ '>' := char_ne_of_toNat_ne (by omega)
    have h3 : c ≠ ',' := char_ne_of_toNat_ne (by omega)
    have h4 : c ≠ ':' := char_ne_of_toNat_ne (by omega)
    have h5 : c ≠ '0' := char_ne_of_toNat_ne (by omega)
    have h6 : c.isDigit = false := by
      rw [← Bool.not_eq_true, isDigit_iff]; omega
    have h7 : c ≠ 'b' := char_ne_of_toNat_ne (by omega)
    have h8 : c ≠ 'x' := char_ne_of_toNat_ne (by omega)
    have htake : cs.takeWhile is_ascii_whitespace = cs :=
      takeWhile_all_eq cs (fun y hy => hws y (by simp [hy]))
    show tokenizeF ((c :: cs).length + 1) (c :: cs) = _
    rw [show (c :: cs).length + 1 = (cs.length + 1) + 1 from by simp]
    simp only [tokenizeF, next_token, if_neg h1, if_neg h2, if_neg h3, if_neg h4,
      if_neg (fun hand => h5 hand.1 : ¬(c = '0' ∧ (cs.head? = some 'x' ∨ cs.head? = some 'X'))),
      h6, Bool.false_eq_true, if_false,
      if_neg (fun hand => h7 hand.1 : ¬(c = 'b' ∧ cs.head? = some '"')),
      if_neg (fun hand => h8 hand.1 : ¬(c = 'x' ∧ cs.head? = some '"')),
      hcws, if_true, htake]
    rw [List.drop_length]
    rfl

theorem parse_ws_only {A : Type} (s : List Char) (hne : s ≠ [])
    (hws : ∀ c ∈ s, is_ascii_whitespace c = true)
    (f : List Token → Except String (A × List Token)) :
    parse s f = parse [] f := by
  unfold parse
  rw [tokenize_ws_only s hne hws]
  rfl

/-- Claim C10: the list entry points `parse_type_tags`,
`parse_transaction_arguments` and `parse_string_list` return `Ok` with the
empty list on empty input, and likewise on input that is only ASCII
whitespace, while the single-item entry points fail on the same inputs. -/
theorem claim_C10_empty_input_lists :
    parse_type_tags "" = .ok [] ∧ parse_transaction_arguments "" = .ok [] ∧
    parse_string_list "" = .ok [] ∧
    (∀ s : String, s.data ≠ [] → (∀ c ∈ s.data, is_ascii_whitespace c = true) →
      parse_type_tags s = .ok [] ∧ parse_transaction_arguments s = .ok [] ∧
      parse_string_list s = .ok []) ∧
    (∃ e, parse_type_tag "" = .error e) ∧ (∃ e, parse_transaction_argument "" = .error e) ∧
    (∃ e, parse_struct_tag "" = .error e) ∧
    (∃ e, parse_type_tag " " = .error e) ∧ (∃ e, parse_transaction_argument " " = .error e) := by
  refine ⟨rfl, rfl, rfl, ?_, ⟨_, rfl⟩, ⟨_, rfl⟩, ⟨_, rfl⟩, ⟨_, rfl⟩, ⟨_, rfl⟩⟩
  intro s hne hws
  unfold parse_type_tags parse_transaction_arguments parse_string_list
  simp only [parse_ws_only s.data hne hws]
  exact ⟨rfl, rfl, rfl⟩

/-- Claim C10 witness: the whitespace-only input `" "` instantiates the
universally quantified part. -/
theorem claim_C10_empty_input_lists_witness :
    parse_type_tags " " = .ok [] ∧ parse_transaction_arguments " " = .ok [] ∧
    parse_string_list " " = .ok [] :=
  claim_C10_empty_input_lists.2.2.2.1 " " (by decide) (by decide)

/-- Claim C7: the single-item entry points fail with an error value (never
a crash) on empty input, a bare minus sign, `0x` with no digit, and an
unterminated byte string. -/
theorem claim_C7_negative_inputs :
    (∃ e, parse_transaction_argument "" = .error e) ∧
    (∃ e, parse_type_tag "" = .error e) ∧
    (∃ e, parse_transaction_argument "-3" = .error e) ∧
    (∃ e, parse_type_tag "-3" = .error e) ∧
    (∃ e, parse_transaction_argument "0x" = .error e) ∧
    (∃ e, parse_type_tag "0x" = .error e) ∧
    (∃ e, parse_transaction_argument "x\"ffff" = .error e) ∧
    (∃ e, parse_type_tag "x\"ffff" = .error e) :=
  ⟨⟨_, rfl⟩, ⟨_, rfl⟩, ⟨_, rfl⟩, ⟨_, rfl⟩, ⟨_, rfl⟩, ⟨_, rfl⟩, ⟨_, rfl⟩, ⟨_, rfl⟩⟩

/-- Claim C4: the shared entry pipeline `parse` rejects trailing input:
whenever the grammar routine succeeds but a token other than the
end-of-input marker remains, the entry point returns an error; in
particular `"3 false"` fails after the complete literal `3`, and
`"true3"` fails (it lexes as the single name `true3`). -/
theorem claim_C4_trailing_input :
    (∀ (A : Type) (f : List Token → Except String (A × List Token)) (s : List Char)
        (ts : List Token) (r : A) (rest : List Token) (tok : Token),
      tokenize s = .ok ts →
      f (ts.filter (fun t => !t.is_whitespace) ++ [Token.EOF]) = .ok (r, rest) →
      rest.head? = some tok → tok ≠ Token.EOF →
      ∃ e, parse s f = .error e) ∧
    (∃ e, parse_transaction_argument "3 false" = .error e) ∧
    (∃ e, parse_transaction_argument "true3" = .error e) ∧
    parse_transaction_argument "3" = .ok (.U64 3) ∧
    parse_transaction_argument "true" = .ok (.Bool true) := by
  refine ⟨?_, ⟨_, rfl⟩, ⟨_, rfl⟩, rfl, rfl⟩
  intro A f s ts r rest tok h1 h2 h3 h4
  unfold parse
  rw [h1]
  simp only [Bind.bind, Except.bind, h2]
  cases rest with
  | nil => simp at h3
  | cons t rest1 =>
    have ht : t = tok := by simpa using h3
    subst ht
    simp only [Parser.consume, Parser.next, Bind.bind, Except.bind, if_neg h4]
    exact ⟨_, rfl⟩

/-- Claim C4 witness: instantiating the quantified part on `"3 false"`
with the transaction-argument grammar routine. -/
theorem claim_C4_trailing_input_witness :
    ∃ e, parse "3 false".data Parser.parse_transaction_argument = .error e :=
  claim_C4_trailing_input.1 TransactionArgument Parser.parse_transaction_argument
    "3 false".data [Token.U64 ['3'], Token.Whitespace [' '], Token.False]
    (TransactionArgument.U64 3) [Token.False, Token.EOF] Token.False
    rfl rfl rfl (by decide)

/-- Claim C5: the comma-list combinator returns the empty list when the
next token is already the terminator; items must otherwise be followed by
the terminator or a mandatory comma; a trailing comma before the
terminator is accepted exactly when the caller opts in; and consequently
`"0x1::M::S<u8, bool,>"` parses to the same struct tag as
`"0x1::M::S<u8, bool>"`. -/
theorem claim_C5_comma_list :
    (∀ (R : Type) (f : List Token → Except String (R × List Token)) (end_token : Token)
        (allow : Bool) (ts : List Token), Parser.peek ts = some end_token →
      Parser.parse_comma_list f end_token allow ts = .ok ([], ts)) ∧
    parse_struct_tag "0x1::M::S<u8, bool,>" =
      .ok (StructTag.mk ⟨1⟩ ⟨['M']⟩ ⟨['S']⟩ [TypeTag.U8, TypeTag.Bool]) ∧
    parse_struct_tag "0x1::M::S<u8, bool>" =
      .ok (StructTag.mk ⟨1⟩ ⟨['M']⟩ ⟨['S']⟩ [TypeTag.U8, TypeTag.Bool]) ∧
    Parser.parse_comma_list Parser.parse_string Token.EOF true
      [Token.Name ['a'], Token.Comma, Token.EOF] = .ok ([['a']], [Token.EOF]) ∧
    (∃ e, Parser.parse_comma_list Parser.parse_string Token.EOF false
      [Token.Name ['a'], Token.Comma, Token.EOF] = .error e) ∧
    (∃ e, Parser.parse_comma_list Parser.parse_string Token.EOF true
      [Token.Name ['a'], Token.Name ['b'], Token.EOF] = .error e) := by
  refine ⟨?_, rfl, rfl, rfl, ⟨_, rfl⟩, ⟨_, rfl⟩⟩
  intro R f end_token allow ts h
  unfold Parser.parse_comma_list
  rw [if_pos h]

/-- Claim C5 witness: instantiating the empty-list part at the terminator
`Gt` heading the stream. -/
theorem claim_C5_comma_list_witness :
    Parser.parse_comma_list Parser.parse_string Token.Gt true [Token.Gt, Token.EOF] =
      .ok ([], [Token.Gt, Token.EOF]) :=
  claim_C5_comma_list.1 (List Char) Parser.parse_string Token.Gt true
    [Token.Gt, Token.EOF] (by decide)

/-! ## The numeric sub-lexer's suffix law -/

theorem digit_loop_digits :
    ∀ ds : List Char, (∀ c ∈ ds, c.isDigit = true) →
    ∀ (num t : List Char), digit_loop num (ds ++ t) = digit_loop (num ++ ds) t
  | [], _, num, t => by simp [List.append_nil]
  | d :: ds, h, num, t => by
    have hd : d.isDigit = true := h d (by simp)
    show digit_loop num (d :: (ds ++ t)) = _
    simp only [digit_loop, hd, if_true]
    rw [digit_loop_digits ds (fun c hc => h c (by simp [hc])) (num ++ [d]) t]
    simp

theorem suffix_loop_alnum :
    ∀ xs : List Char, (∀ c ∈ xs, c.isAlphanum = true) →
    ∀ (num acc t : List Char), suffix_loop num acc (xs ++ t) = suffix_loop num (acc ++ xs) t
  | [], _, num, acc, t => by simp [List.append_nil]
  | x :: xs, h, num, acc, t => by
    have hx : x.isAlphanum = true := h x (by simp)
    show suffix_loop num acc (x :: (xs ++ t)) = _
    simp only [suffix_loop, hx, if_true]
    rw [suffix_loop_alnum xs (fun c hc => h c (by simp [hc])) num (acc ++ [x]) t]
    simp

theorem suffix_loop_stop (num acc t : List Char)
    (h : t = [] ∨ ∃ c cs, t = c :: cs ∧ c.isAlphanum = false) :
    suffix_loop num acc t = token_of_suffix num acc := by
  rcases h with rfl | ⟨c, cs, rfl, hc⟩
  · rfl
  · simp [suffix_loop, hc]

theorem token_of_suffix_invalid (num sfx : List Char)
    (hbad : sfx ≠ ['u', '8'] ∧ sfx ≠ ['u', '6', '4'] ∧ sfx ≠ ['u', '1', '2', '8']) :
    token_of_suffix num sfx = .error "invalid suffix" := by
  obtain ⟨h1, h2, h3⟩ := hbad
  simp only [token_of_suffix, if_neg h1, if_neg h2, if_neg h3]

theorem next_number_invalid_suffix (initial : Char) (ds sfx rest : List Char)
    (hds : ∀ c ∈ ds, c.isDigit = true)
    (hs : ∃ c cs, sfx = c :: cs ∧ c.isAlphanum = true ∧ c.isDigit = false)
    (hall : ∀ c ∈ sfx, c.isAlphanum = true)
    (hrest : rest = [] ∨ ∃ c cs, rest = c :: cs ∧ c.isAlphanum = false)
    (hbad : sfx ≠ ['u', '8'] ∧ sfx ≠ ['u', '6', '4'] ∧ sfx ≠ ['u', '1', '2', '8']) :
    next_number initial (ds ++ (sfx ++ rest)) = .error "invalid suffix" := by
  unfold next_number
  rw [digit_loop_digits ds hds [initial] (sfx ++ rest)]
  obtain ⟨c, cs, rfl, hca, hcd⟩ := hs
  show digit_loop ([initial] ++ ds) (c :: (cs ++ rest)) = _
  simp only [digit_loop, hcd, Bool.false_eq_true, if_false, hca, if_true]
  rw [suffix_loop_alnum cs (fun x hx => hall x (by simp [hx])) ([initial] ++ ds) [c] rest]
  rw [suffix_loop_stop _ _ _ hrest]
  exact token_of_suffix_invalid _ _ (by simpa using hbad)

/-- Claim C3: the numeric suffix and overflow law for
`parse_transaction_argument`: `255u8` is `U8 255`; `256u8` overflows its
declared width and fails; unsuffixed `0` defaults to the 64-bit kind;
the maximum `u64` parses and one more fails; and in the numeric sub-lexer
`next_number`, a collected suffix that is not exactly `u8`, `u64` or
`u128` fails during lexing with the invalid-suffix error, whatever
follows it (nothing, or a non-alphanumeric character such as
whitespace). -/
theorem claim_C3_numeric_suffix_law :
    parse_transaction_argument "255u8" = .ok (.U8 255) ∧
    parse_transaction_argument "256u8" = .error "number too large to fit in target type" ∧
    parse_transaction_argument "0" = .ok (.U64 0) ∧
    parse_transaction_argument "18446744073709551615u64" = .ok (.U64 18446744073709551615) ∧
    parse_transaction_argument "18446744073709551616u64" =
      .error "number too large to fit in target type" ∧
    parse_transaction_argument "0u42" = .error "invalid suffix" ∧
    parse_transaction_argument "0u6 4" = .error "invalid suffix" ∧
    parse_transaction_argument "0u64x" = .error "invalid suffix" ∧
    (∀ (initial : Char) (ds sfx rest : List Char),
      (∀ c ∈ ds, c.isDigit = true) →
      (∃ c cs, sfx = c :: cs ∧ c.isAlphanum = true ∧ c.isDigit = false) →
      (∀ c ∈ sfx, c.isAlphanum = true) →
      (rest = [] ∨ ∃ c cs, rest = c :: cs ∧ c.isAlphanum = false) →
      sfx ≠ ['u', '8'] ∧ sfx ≠ ['u', '6', '4'] ∧ sfx ≠ ['u', '1', '2', '8'] →
      next_number initial (ds ++ (sfx ++ rest)) = .error "invalid suffix") :=
  ⟨rfl, rfl, rfl, rfl, rfl, rfl, rfl, rfl, next_number_invalid_suffix⟩

/-- Claim C3 witness: instantiating the quantified suffix law on the
literal `25u9`. -/
theorem claim_C3_numeric_suffix_law_witness :
    next_number '2' (['5'] ++ (['u', '9'] ++ [])) = .error "invalid suffix" :=
  claim_C3_numeric_suffix_law.2.2.2.2.2.2.2.2 '2' ['5'] ['u', '9'] []
    (by decide) ⟨'u', ['9'], rfl, by decide, by decide⟩ (by decide) (Or.inl rfl)
    ⟨by decide, by decide, by decide⟩

/-! ## Keyword classification at lex time -/

/-- The reserved spellings of the keyword lookup table. -/
def reserved_spellings : List (List Char) :=
  [['u', '8'], ['u', '6', '4'], ['u', '1', '2', '8'], ['b', 'o', 'o', 'l'],
   ['a', 'd', 'd', 'r', 'e', 's', 's'], ['v', 'e', 'c', 't', 'o', 'r'],
   ['t', 'r', 'u', 'e'], ['f', 'a', 'l', 's', 'e'], ['s', 'i', 'g', 'n', 'e', 'r']]

theorem name_token_not_reserved (s : List Char) (h : s ∉ reserved_spellings) :
    name_token s = .Name s := by
  simp only [reserved_spellings, List.mem_cons, List.not_mem_nil, or_false, not_or] at h
  obtain ⟨h1, h2, h3, h4, h5, h6, h7, h8, h9⟩ := h
  simp only [name_token, if_neg h1, if_neg h2, if_neg h3, if_neg h4, if_neg h5, if_neg h6,
    if_neg h7, if_neg h8, if_neg h9]

theorem next_token_alpha (c : Char) (cs : List Char) (hca : c.isAlpha = true)
    (hb : ¬(c = 'b' ∧ cs.head? = some '"')) (hx : ¬(c = 'x' ∧ cs.head? = some '"')) :
    next_token (c :: cs) =
      .ok (some (name_token (c :: cs.takeWhile is_valid_identifier_char),
        (c :: cs.takeWhile is_valid_identifier_char).length)) := by
  have h := isAlpha_iff.mp hca
  have e1 : ('<').toNat = 60 := rfl
  have e2 : ('>').toNat = 62 := rfl
  have e3 : (',').toNat = 44 := rfl
  have e4 : (':').toNat = 58 := rfl
  have e5 : ('0').toNat = 48 := rfl
  have h1 : c ≠ '<' := char_ne_of_toNat_ne (by omega)
  have h2 : c ≠ '>' := char_ne_of_toNat_ne (by omega)
  have h3 : c ≠ ',' := char_ne_of_toNat_ne (by omega)
  have h4 : c ≠ ':' := char_ne_of_toNat_ne (by omega)
  have h5 : c ≠ '0' := char_ne_of_toNat_ne (by omega)
  have h6 : c.isDigit = false := by
    rw [← Bool.not_eq_true, isDigit_iff]; omega
  have h7 : is_ascii_whitespace c = false := by
    rw [← Bool.not_eq_true]
    intro hw
    have := ws_toNat hw
    omega
  simp only [next_token, if_neg h1, if_neg h2, if_neg h3, if_neg h4,
    if_neg (fun hand => h5 hand.1 : ¬(c = '0' ∧ (cs.head? = some 'x' ∨ cs.head? = some 'X'))),
    h6, Bool.false_eq_true, if_false, if_neg hb, if_neg hx, h7, hca, if_true]

/-- Claim C8 counterexample: the claim quantifies over every input
beginning with an ASCII alphabetic character, but the input `b""` begins
with the alphabetic `b` and lexes as a byte-string token, not as the
name classification of its maximal identifier run (which would be
`Name "b"` of length 1). -/
theorem claim_C8_counterexample :
    Char.isAlpha 'b' = true ∧
    next_token ['b', '"', '"'] = .ok (some (.Bytes [], 3)) ∧
    next_token ['b', '"', '"'] ≠
      .ok (some (name_token ('b' :: List.takeWhile is_valid_identifier_char ['"', '"']),
        ('b' :: List.takeWhile is_valid_identifier_char ['"', '"']).length)) := by
  refine ⟨rfl, rfl, fun h => ?_⟩
  rw [show next_token ['b', '"', '"'] = Except.ok (some (Token.Bytes ([] : List Char), 3)) from rfl,
    show ('b' :: List.takeWhile is_valid_identifier_char ['"', '"']) = ['b'] from rfl] at h
  simp [name_token] at h

/-- Claim C8 (amended): for every input beginning with an ASCII
alphabetic character — except when it opens a byte-string literal
(`b` or `x` immediately followed by a double quote) — the tokenizer
consumes the maximal run of identifier characters and only then
classifies the run: a run matching a reserved spelling becomes the
keyword token, and any other run becomes a generic `Name` token; in
particular `vector2` lexes as the single name `vector2`. -/
theorem claim_C8_keyword_classification :
    (∀ c cs, c.isAlpha = true →
      ¬(c = 'b' ∧ cs.head? = some '"') → ¬(c = 'x' ∧ cs.head? = some '"') →
      next_token (c :: cs) =
        .ok (some (name_token (c :: cs.takeWhile is_valid_identifier_char),
          (c :: cs.takeWhile is_valid_identifier_char).length))) ∧
    (∀ s, s ∉ reserved_spellings → name_token s = .Name s) ∧
    name_token ['v', 'e', 'c', 't', 'o', 'r'] = .VectorType ∧
    tokenize "vector2".data = .ok [.Name ['v', 'e', 'c', 't', 'o', 'r', '2']] :=
  ⟨next_token_alpha, name_token_not_reserved, rfl, rfl⟩

/-- Claim C8 witness: instantiating the quantified parts on the input
`vector2` (whose identifier run is not reserved). -/
theorem claim_C8_keyword_classification_witness :
    next_token ('v' :: "ector2".data) =
      .ok (some (.Name ['v', 'e', 'c', 't', 'o', 'r', '2'], 7)) ∧
    name_token ['v', 'e', 'c', 't', 'o', 'r', '2'] = .Name ['v', 'e', 'c', 't', 'o', 'r', '2'] :=
  ⟨claim_C8_keyword_classification.1 'v' "ector2".data (by decide) (by decide) (by decide),
   claim_C8_keyword_classification.2.1 ['v', 'e', 'c', 't', 'o', 'r', '2'] (by decide)⟩

/-! ## Byte-string literals -/

theorem scan_bytes_ok (pred : Char → Bool) :
    ∀ s : List Char, (∀ c ∈ s, pred c = true) → '"' ∉ s →
    scan_bytes pred (s ++ ['"']) = .ok s
  | [], _, _ => rfl
  | c :: s, hp, hq => by
    have hcq : c ≠ '"' := fun e => hq (by simp [e])
    have hc : pred c = true := hp c (by simp)
    show scan_bytes pred (c :: (s ++ ['"'])) = _
    simp only [scan_bytes, if_neg hcq, hc, if_true]
    rw [scan_bytes_ok pred s (fun y hy => hp y (by simp [hy])) (fun hm => hq (by simp [hm]))]
    rfl

theorem to_hex_digit_is_hexdigit (n : Nat) (h : n < 16) :
    is_ascii_hexdigit (to_hex_digit n) = true := by
  interval_cases n <;> decide

theorem hex_val_to_hex_digit (n : Nat) (h : n < 16) : hex_val (to_hex_digit n) = n := by
  interval_cases n <;> decide

theorem hex_decode_encode : ∀ s : List Char, (∀ c ∈ s, c.toNat < 128) →
    hex_decode (hex_encode s) = .ok (s.map Char.toNat)
  | [], _ => rfl
  | c :: s, h => by
    have hc : c.toNat < 128 := h c (by simp)
    have hdiv : c.toNat / 16 < 16 := by omega
    have hmod : c.toNat % 16 < 16 := Nat.mod_lt _ (by omega)
    show hex_decode (to_hex_digit (c.toNat / 16) :: to_hex_digit (c.toNat % 16) :: hex_encode s) = _
    simp only [hex_decode, to_hex_digit_is_hexdigit _ hdiv, to_hex_digit_is_hexdigit _ hmod,
      Bool.and_self, if_true]
    rw [hex_decode_encode s (fun y hy => h y (by simp [hy]))]
    simp only [Except.map, List.map]
    rw [hex_val_to_hex_digit _ hdiv, hex_val_to_hex_digit _ hmod]
    have : 16 * (c.toNat / 16) + c.toNat % 16 = c.toNat := by omega
    rw [this]

theorem next_token_bstring (s : List Char) (hascii : ∀ c ∈ s, c.toNat < 128) (hq : '"' ∉ s) :
    next_token ('b' :: '"' :: (s ++ ['"'])) =
      .ok (some (.Bytes (hex_encode s), s.length + 3)) := by
  have hscan : scan_bytes (fun ch => ch.toNat < 128) (s ++ ['"']) = .ok s :=
    scan_bytes_ok _ s (fun c hc => by simp [hascii c hc]) hq
  simp only [next_token, if_neg (by decide : ¬('b' = '<')), if_neg (by decide : ¬('b' = '>')),
    if_neg (by decide : ¬('b' = ',')), if_neg (by decide : ¬('b' = ':')),
    if_neg (fun hand => absurd hand.1 (by decide) :
      ¬('b' = '0' ∧ (('"' :: (s ++ ['"'])).head? = some 'x' ∨
        ('"' :: (s ++ ['"'])).head? = some 'X'))),
    show ('b').isDigit = false from rfl, Bool.false_eq_true, if_false,
    if_pos (⟨rfl, rfl⟩ : 'b' = 'b' ∧ ('"' :: (s ++ ['"'])).head? = some '"')]
  rw [show ('"' :: (s ++ ['"'])).tail = s ++ ['"'] from rfl, hscan]
  rfl

theorem tokenize_bstring (s : List Char) (hascii : ∀ c ∈ s, c.toNat < 128) (hq : '"' ∉ s) :
    tokenize ('b' :: '"' :: (s ++ ['"'])) = .ok [Token.Bytes (hex_encode s)] := by
  have hlen : ('b' :: '"' :: (s ++ ['"'])).length = s.length + 3 := by simp
  show tokenizeF (('b' :: '"' :: (s ++ ['"'])).length + 1) _ = _
  rw [hlen]
  show tokenizeF ((s.length + 3) + 1) _ = _
  rw [show (s.length + 3) + 1 = (s.length + 3) + 1 from rfl]
  simp only [tokenizeF, next_token_bstring s hascii hq]
  rw [show List.drop (s.length + 3) ('b' :: '"' :: (s ++ ['"'])) = List.drop (s.length + 1) (s ++ ['"']) from rfl]
  rw [show s.length + 1 = (s ++ ['"']).length from by simp, List.drop_length]
  rfl

/-- Claim C6: `parse_transaction_argument "x\"deadbeef\""` yields the
byte vector `[0xde, 0xad, 0xbe, 0xef]`, and for every string of ASCII
characters containing no double quote, the `b"..."` literal built from it
parses to the `U8Vector` of exactly its character byte values (the lexer
stores the content hex-encoded; the argument parser hex-decodes it). -/
theorem claim_C6_byte_strings :
    parse_transaction_argument "x\"deadbeef\"" = .ok (.U8Vector [0xde, 0xad, 0xbe, 0xef]) ∧
    (∀ s : List Char, (∀ c ∈ s, c.toNat < 128) → '"' ∉ s →
      parse_transaction_argument (String.mk ('b' :: '"' :: (s ++ ['"']))) =
        .ok (.U8Vector (s.map Char.toNat))) := by
  refine ⟨rfl, fun s hascii hq => ?_⟩
  show parse ('b' :: '"' :: (s ++ ['"'])) Parser.parse_transaction_argument = _
  unfold parse
  rw [tokenize_bstring s hascii hq]
  simp only [Bind.bind, Except.bind, List.filter, Token.is_whitespace, Bool.not_false,
    List.nil_append, List.cons_append, Parser.parse_transaction_argument, Parser.next,
    hex_decode_encode s hascii]
  rfl

/-- Claim C6 witness: instantiating the quantified part on the content
`ab`, so `b"ab"` parses to the bytes 97, 98. -/
theorem claim_C6_byte_strings_witness :
    parse_transaction_argument (String.mk ('b' :: '"' :: (['a', 'b'] ++ ['"']))) =
      .ok (.U8Vector [97, 98]) :=
  claim_C6_byte_strings.2 ['a', 'b'] (by decide) (by decide)

/-! ## Unreachability of the internal-consistency error -/

theorem ne_of_data_head_ne {a b : String} (h : a.data.head? ≠ b.data.head?) : a ≠ b :=
  fun e => h (congrArg (fun s => s.data.head?) e)

theorem error_error {α : Type} {e1 e2 : String}
    (h : (Except.error e1 : Except String α) = .error e2) : e2 = e1 := by
  injection h with h
  exact h.symm

theorem token_of_suffix_error {num sfx : List Char} {e : String}
    (h : token_of_suffix num sfx = .error e) : e = "invalid suffix" := by
  simp only [token_of_suffix] at h
  split at h
  · exact Except.noConfusion h
  · split at h
    · exact Except.noConfusion h
    · split at h
      · exact Except.noConfusion h
      · exact error_error h

theorem suffix_loop_error :
    ∀ {t num acc : List Char} {e : String},
      suffix_loop num acc t = .error e → e = "invalid suffix"
  | [], _, _, _, h => token_of_suffix_error h
  | c :: cs, num, acc, e, h => by
    simp only [suffix_loop] at h
    split at h
    · exact suffix_loop_error h
    · exact token_of_suffix_error h

theorem digit_loop_error :
    ∀ {t num : List Char} {e : String}, digit_loop num t = .error e → e = "invalid suffix"
  | [], _, _, h => by
    simp only [digit_loop] at h
    exact Except.noConfusion h
  | c :: cs, num, e, h => by
    simp only [digit_loop] at h
    split at h
    · exact digit_loop_error h
    · split at h
      · exact suffix_loop_error h
      · exact Except.noConfusion h

theorem except_map_error {α β : Type} {f : α → β} {x : Except String α} {e : String}
    (h : x.map f = .error e) : x = .error e := by
  cases x with
  | error e2 => simpa [Except.map] using h
  | ok a => simp [Except.map] at h

theorem scan_bytes_error {pred : Char → Bool} :
    ∀ {t : List Char} {e : String}, scan_bytes pred t = .error e → e = "unrecognized token"
  | [], _, h => error_error h
  | c :: cs, e, h => by
    simp only [scan_bytes] at h
    split at h
    · exact Except.noConfusion h
    · split at h
      · exact scan_bytes_error (except_map_error h)
      · exact error_error h

theorem address_scan_error {t : List Char} {e : String}
    (h : address_scan t = .error e) : e = "unrecognized token" := by
  cases t with
  | nil => exact error_error h
  | cons d rest =>
    simp only [address_scan] at h
    split at h
    · exact Except.noConfusion h
    · exact error_error h

theorem next_token_error :
    ∀ {s : List Char} {e : String}, next_token s = .error e →
      e = "unrecognized token" ∨ e = "invalid suffix"
  | [], e, h => Except.noConfusion h
  | c :: cs, e, h => by
    simp only [next_token] at h
    split at h
    · exact Except.noConfusion h
    split at h
    · exact Except.noConfusion h
    split at h
    · exact Except.noConfusion h
    split at h
    · split at h
      · exact Except.noConfusion h
      · exact Or.inl (error_error h)
    split at h
    · exact Or.inl (address_scan_error (except_map_error h))
    split at h
    · exact Or.inr (digit_loop_error (except_map_error h))
    split at h
    · exact Or.inl (scan_bytes_error (except_map_error h))
    split at h
    · exact Or.inl (scan_bytes_error (except_map_error h))
    split at h
    · exact Except.noConfusion h
    split at h
    · exact Except.noConfusion h
    · exact Or.inl (error_error h)

theorem tokenizeF_error :
    ∀ {fuel : Nat} {s : List Char} {e : String}, tokenizeF fuel s = .error e →
      e = "tokenize fuel exhausted" ∨ e = "unrecognized token" ∨ e = "invalid suffix"
  | 0, _, e, h => Or.inl (error_error h)
  | fuel + 1, s, e, h => by
    simp only [tokenizeF] at h
    split at h
    · rename_i e2 he
      cases error_error h
      exact Or.inr (next_token_error he)
    · exact Except.noConfusion h
    · exact tokenizeF_error (except_map_error h)

def lastEOF (ts : List Token) : Prop := ts.getLast? = some Token.EOF

theorem lastEOF_ne_nil {ts : List Token} (h : lastEOF ts) : ts ≠ [] := by
  intro e
  subst e
  simp [lastEOF] at h

theorem lastEOF_cons {t : Token} {ts : List Token} (h : lastEOF (t :: ts)) :
    (ts = [] ∧ t = Token.EOF) ∨ lastEOF ts := by
  cases ts with
  | nil =>
    left
    refine ⟨rfl, ?_⟩
    simpa [lastEOF] using h
  | cons u us =>
    right
    simpa [lastEOF, List.getLast?_cons_cons] using h

theorem lastEOF_cons_of_ne {t : Token} {ts : List Token} (h : lastEOF (t :: ts))
    (hne : t ≠ Token.EOF) : lastEOF ts := by
  rcases lastEOF_cons h with ⟨-, he⟩ | h2
  · exact absurd he hne
  · exact h2

theorem data_head_append (pre rest : String) (c : Char) (h : pre.data.head? = some c) :
    (pre ++ rest).data.head? = some c := by
  rw [String.data_append]
  cases hp : pre.data with
  | nil => rw [hp] at h; exact Option.noConfusion h
  | cons a l => rw [hp] at h; injection h with h; subst h; rfl

theorem ne_oot_of_head {e : String} (h : e.data.head? ≠ some 'o') :
    e ≠ "out of tokens, this should not happen" :=
  ne_of_data_head_ne
    (by rw [show ("out of tokens, this should not happen").data.head? = some 'o' from rfl]
        exact h)

theorem consume_msg_ne_oot (a b : Token) :
    ("expected token " ++ Token.dbg a ++ ", got " ++ Token.dbg b) ≠
      "out of tokens, this should not happen" :=
  ne_oot_of_head (by
    rw [data_head_append ("expected token " ++ Token.dbg a ++ ", got ") (Token.dbg b) 'e'
      (data_head_append ("expected token " ++ Token.dbg a) ", got " 'e'
        (data_head_append "expected token " (Token.dbg a) 'e' rfl))]
    decide)

theorem string_unexpected_ne_oot (tok : Token) :
    ("unexpected token " ++ Token.dbg tok ++ ", expected string") ≠
      "out of tokens, this should not happen" :=
  ne_oot_of_head (by
    rw [data_head_append ("unexpected token " ++ Token.dbg tok) ", expected string" 'u'
      (data_head_append "unexpected token " (Token.dbg tok) 'u' rfl)]
    decide)

theorem tx_unexpected_ne_oot (tok : Token) :
    ("unexpected token " ++ Token.dbg tok ++ ", expected transaction argument") ≠
      "out of tokens, this should not happen" :=
  ne_oot_of_head (by
    rw [data_head_append ("unexpected token " ++ Token.dbg tok) ", expected transaction argument"
      'u' (data_head_append "unexpected token " (Token.dbg tok) 'u' rfl)]
    decide)

theorem tt_unexpected_ne_oot (tok : Token) :
    ("unexpected token " ++ Token.dbg tok ++ ", expected type tag") ≠
      "out of tokens, this should not happen" :=
  ne_oot_of_head (by
    rw [data_head_append ("unexpected token " ++ Token.dbg tok) ", expected type tag" 'u'
      (data_head_append "unexpected token " (Token.dbg tok) 'u' rfl)]
    decide)

theorem expected_name_ne_oot (tok : Token) :
    ("expected name, got " ++ Token.dbg tok) ≠ "out of tokens, this should not happen" :=
  ne_oot_of_head (by
    rw [data_head_append "expected name, got " (Token.dbg tok) 'e' rfl]
    decide)

theorem nesting_msg_ne_oot (depth : Nat) :
    ("Exceeded TypeTag nesting limit during parsing: " ++ Nat.repr depth) ≠
      "out of tokens, this should not happen" :=
  ne_oot_of_head (by
    rw [data_head_append "Exceeded TypeTag nesting limit during parsing: " (Nat.repr depth) 'E'
      rfl]
    decide)

theorem parse_uint_error {bound : Nat} {s : List Char} {e : String}
    (h : parse_uint bound s = .error e) : e ≠ "out of tokens, this should not happen" := by
  unfold parse_uint at h
  split at h
  · cases error_error h; decide
  · dsimp only at h
    split at h
    · split at h
      · exact Except.noConfusion h
      · cases error_error h; decide
    · cases error_error h; decide

theorem from_hex_literal_error {s : List Char} {e : String}
    (h : from_hex_literal s = .error e) : e ≠ "out of tokens, this should not happen" := by
  unfold from_hex_literal at h
  split at h
  · dsimp only at h
    split at h
    · split at h
      · exact Except.noConfusion h
      · cases error_error h; decide
    · cases error_error h; decide
  · cases error_error h; decide

theorem identifier_new_error {s : List Char} {e : String}
    (h : Identifier.new s = .error e) : e ≠ "out of tokens, this should not happen" := by
  unfold Identifier.new at h
  split at h
  · cases error_error h; decide
  · split at h
    · exact Except.noConfusion h
    · cases error_error h; decide

theorem hex_decode_error :
    ∀ {s : List Char} {e : String}, hex_decode s = .error e →
      e ≠ "out of tokens, this should not happen"
  | [], e, h => Except.noConfusion h
  | [_], e, h => by cases error_error h; decide
  | c1 :: c2 :: cs, e, h => by
    simp only [hex_decode] at h
    split at h
    · exact hex_decode_error (except_map_error h)
    · cases error_error h; decide

theorem consume_inv (tok : Token) (ts : List Token) (hts : lastEOF ts) :
    (∀ e, Parser.consume tok ts = .error e → e ≠ "out of tokens, this should not happen") ∧
    (tok ≠ Token.EOF → ∀ ts2, Parser.consume tok ts = .ok ts2 → lastEOF ts2) := by
  cases ts with
  | nil => exact absurd rfl (lastEOF_ne_nil hts)
  | cons t ts1 =>
    simp only [Parser.consume, Parser.next, Bind.bind, Except.bind]
    by_cases he : t = tok
    · rw [if_pos he]
      refine ⟨fun e h => Except.noConfusion h, fun hne ts2 h => ?_⟩
      cases h
      exact lastEOF_cons_of_ne hts (he ▸ hne)
    · rw [if_neg he]
      refine ⟨fun e h => ?_, fun hne ts2 h => Except.noConfusion h⟩
      cases error_error h
      exact consume_msg_ne_oot tok t

theorem parse_string_inv (ts : List Token) (hts : lastEOF ts) :
    (∀ e, Parser.parse_string ts = .error e → e ≠ "out of tokens, this should not happen") ∧
    (∀ x ts2, Parser.parse_string ts = .ok (x, ts2) → lastEOF ts2) := by
  cases ts with
  | nil => exact absurd rfl (lastEOF_ne_nil hts)
  | cons t ts1 =>
    simp only [Parser.parse_string, Parser.next, Bind.bind, Except.bind]
    refine ⟨fun e h => ?_, fun x ts2 h => ?_⟩
    · split at h
      · exact Except.noConfusion h
      · cases error_error h
        exact string_unexpected_ne_oot _
    · split at h
      · rename_i s
        cases h
        exact lastEOF_cons_of_ne hts (by intro he; cases he)
      · exact Except.noConfusion h

theorem parse_transaction_argument_inv (ts : List Token) (hts : lastEOF ts) :
    (∀ e, Parser.parse_transaction_argument ts = .error e →
      e ≠ "out of tokens, this should not happen") ∧
    (∀ x ts2, Parser.parse_transaction_argument ts = .ok (x, ts2) → lastEOF ts2) := by
  cases ts with
  | nil => exact absurd rfl (lastEOF_ne_nil hts)
  | cons t ts1 =>
    simp only [Parser.parse_transaction_argument, Parser.next, Bind.bind, Except.bind]
    refine ⟨fun e h => ?_, fun x ts2 h => ?_⟩
    · split at h
      all_goals try exact Except.noConfusion h
      all_goals try (cases error_error h; exact tx_unexpected_ne_oot _)
      all_goals
        (split at h
         · rename_i heq
           cases error_error h
           first
           | exact parse_uint_error heq
           | exact from_hex_literal_error heq
           | exact hex_decode_error heq
         · exact Except.noConfusion h)
    · split at h
      all_goals try exact Except.noConfusion h
      all_goals try (cases h; exact lastEOF_cons_of_ne hts (by intro he; cases he))
      all_goals
        (split at h
         · exact Except.noConfusion h
         · cases h
           exact lastEOF_cons_of_ne hts (by intro he; cases he))

theorem parse_comma_list_loop_inv {R : Type}
    (f : List Token → Except String (R × List Token)) (end_token : Token) (allow : Bool)
    (hf : ∀ ts, lastEOF ts →
      (∀ e, f ts = .error e → e ≠ "out of tokens, this should not happen") ∧
      (∀ x ts2, f ts = .ok (x, ts2) → lastEOF ts2)) :
    ∀ (fuel : Nat) (ts : List Token), lastEOF ts →
      (∀ e, Parser.parse_comma_list_loop fuel f end_token allow ts = .error e →
        e ≠ "out of tokens, this should not happen") ∧
      (∀ xs ts2, Parser.parse_comma_list_loop fuel f end_token allow ts = .ok (xs, ts2) →
        lastEOF ts2)
  | 0, ts, hts => by
    refine ⟨fun e h => ?_, fun xs ts2 h => Except.noConfusion h⟩
    cases error_error h
    decide
  | fuel + 1, ts, hts => by
    simp only [Parser.parse_comma_list_loop, Bind.bind, Except.bind]
    refine ⟨fun e h => ?_, fun xs ts2 h => ?_⟩
    · split at h
      · rename_i heq
        cases error_error h
        exact (hf ts hts).1 _ heq
      · rename_i p heq
        have hts1 : lastEOF p.2 := (hf ts hts).2 p.1 p.2 (by rw [heq])
        split at h
        · exact Except.noConfusion h
        · split at h
          · rename_i heq2
            cases error_error h
            exact (consume_inv Token.Comma p.2 hts1).1 _ heq2
          · rename_i ts3 heq2
            have hts3 : lastEOF ts3 :=
              (consume_inv Token.Comma p.2 hts1).2 (by intro he; cases he) ts3 heq2
            split at h
            · exact Except.noConfusion h
            · exact (parse_comma_list_loop_inv f end_token allow hf fuel ts3 hts3).1 _
                (except_map_error h)
    · split at h
      · exact Except.noConfusion h
      · rename_i p heq
        have hts1 : lastEOF p.2 := (hf ts hts).2 p.1 p.2 (by rw [heq])
        split at h
        · cases h
          exact hts1
        · split at h
          · exact Except.noConfusion h
          · rename_i ts3 heq2
            have hts3 : lastEOF ts3 :=
              (consume_inv Token.Comma p.2 hts1).2 (by intro he; cases he) ts3 heq2
            split at h
            · cases h
              exact hts3
            · cases hrec : Parser.parse_comma_list_loop fuel f end_token allow ts3 with
              | error e2 => rw [hrec] at h; exact Except.noConfusion h
              | ok q =>
                rw [hrec] at h
                simp only [Except.map] at h
                cases h
                exact (parse_comma_list_loop_inv f end_token allow hf fuel ts3 hts3).2 q.1 q.2
                  (by rw [hrec])

/-- The invariant that a grammar-routine result is never the
internal-consistency error, and leaves a stream still ending in the
synthetic end marker on success. -/
def ExceptInv {α : Type} (r : Except String (α × List Token)) : Prop :=
  (∀ e, r = .error e → e ≠ "out of tokens, this should not happen") ∧
  (∀ x ts2, r = .ok (x, ts2) → lastEOF ts2)

theorem ExceptInv_error {α : Type} {e : String}
    (h : e ≠ "out of tokens, this should not happen") :
    ExceptInv (.error e : Except String (α × List Token)) :=
  ⟨fun e2 he => by cases error_error he; exact h, fun x ts2 he => Except.noConfusion he⟩

theorem ExceptInv_ok {α : Type} {x : α} {ts : List Token} (h : lastEOF ts) :
    ExceptInv (.ok (x, ts) : Except String (α × List Token)) :=
  ⟨fun e he => Except.noConfusion he, fun y ts2 he => by cases he; exact h⟩

theorem next_inv (ts : List Token) (hts : lastEOF ts) :
    (∀ e, Parser.next ts = .error e → False) ∧
    (∀ t ts2, Parser.next ts = .ok (t, ts2) → ts = t :: ts2 ∧ (t ≠ Token.EOF → lastEOF ts2)) := by
  cases ts with
  | nil => exact absurd rfl (lastEOF_ne_nil hts)
  | cons u us =>
    refine ⟨fun e h => Except.noConfusion h, fun t ts2 h => ?_⟩
    cases h
    exact ⟨rfl, fun hne => lastEOF_cons_of_ne hts hne⟩

theorem parse_comma_list_inv {R : Type}
    (f : List Token → Except String (R × List Token)) (end_token : Token) (allow : Bool)
    (hf : ∀ ts, lastEOF ts →
      (∀ e, f ts = .error e → e ≠ "out of tokens, this should not happen") ∧
      (∀ x ts2, f ts = .ok (x, ts2) → lastEOF ts2))
    (ts : List Token) (hts : lastEOF ts) :
    ExceptInv (Parser.parse_comma_list f end_token allow ts) := by
  unfold Parser.parse_comma_list
  split
  · exact ExceptInv_ok hts
  · exact parse_comma_list_loop_inv f end_token allow hf (ts.length + 1) ts hts

theorem parse_type_tagF_inv :
    ∀ (fuel depth : Nat) (ts : List Token), lastEOF ts →
      ExceptInv (Parser.parse_type_tagF fuel depth ts)
  | 0, depth, ts, hts => by
    rw [Parser.parse_type_tagF.eq_def]
    dsimp only
    split
    · exact ExceptInv_error (nesting_msg_ne_oot depth)
    · exact ExceptInv_error (by decide)
  | fuel + 1, depth, ts, hts => by
    rw [Parser.parse_type_tagF.eq_def]
    dsimp only
    split
    · exact ExceptInv_error (nesting_msg_ne_oot depth)
    cases ts with
    | nil => exact absurd rfl (lastEOF_ne_nil hts)
    | cons t ts1 =>
      simp only [Parser.next, Bind.bind, Except.bind]
      have hts1 : t ≠ Token.EOF → lastEOF ts1 := fun hne => lastEOF_cons_of_ne hts hne
      split
      · exact ExceptInv_ok (hts1 (by intro he; cases he))
      · exact ExceptInv_ok (hts1 (by intro he; cases he))
      · exact ExceptInv_ok (hts1 (by intro he; cases he))
      · exact ExceptInv_ok (hts1 (by intro he; cases he))
      · exact ExceptInv_ok (hts1 (by intro he; cases he))
      · exact ExceptInv_ok (hts1 (by intro he; cases he))
      · -- VectorType
        have h1 : lastEOF ts1 := hts1 (by intro he; cases he)
        split
        · rename_i heq
          exact ExceptInv_error ((consume_inv Token.Lt ts1 h1).1 _ heq)
        · rename_i ts2 heq
          have h2 : lastEOF ts2 :=
            (consume_inv Token.Lt ts1 h1).2 (by intro he; cases he) ts2 heq
          split
          · rename_i heq2
            exact ExceptInv_error ((parse_type_tagF_inv fuel (depth + 1) ts2 h2).1 _ heq2)
          · rename_i p heq2
            have h3 : lastEOF p.2 :=
              (parse_type_tagF_inv fuel (depth + 1) ts2 h2).2 p.1 p.2 (by rw [heq2])
            split
            · rename_i heq3
              exact ExceptInv_error ((consume_inv Token.Gt p.2 h3).1 _ heq3)
            · rename_i ts3 heq3
              exact ExceptInv_ok ((consume_inv Token.Gt p.2 h3).2 (by intro he; cases he) ts3 heq3)
      · -- Address addr
        have h1 : lastEOF ts1 := hts1 (by intro he; cases he)
        split
        · rename_i heq
          exact ExceptInv_error ((consume_inv Token.ColonColon ts1 h1).1 _ heq)
        · rename_i ts2 heq
          have h2 : lastEOF ts2 :=
            (consume_inv Token.ColonColon ts1 h1).2 (by intro he; cases he) ts2 heq
          cases ts2 with
          | nil => exact absurd rfl (lastEOF_ne_nil h2)
          | cons t2 ts3 =>
            dsimp only
            split
            · -- Name module
              have h3 : lastEOF ts3 := lastEOF_cons_of_ne h2 (by intro he; cases he)
              split
              · rename_i heq3
                exact ExceptInv_error ((consume_inv Token.ColonColon ts3 h3).1 _ heq3)
              · rename_i ts4 heq3
                have h4 : lastEOF ts4 :=
                  (consume_inv Token.ColonColon ts3 h3).2 (by intro he; cases he) ts4 heq3
                cases ts4 with
                | nil => exact absurd rfl (lastEOF_ne_nil h4)
                | cons t3 ts5 =>
                  dsimp only
                  split
                  · -- Name name
                    have h5 : lastEOF ts5 := lastEOF_cons_of_ne h4 (by intro he; cases he)
                    by_cases hpeek : Parser.peek ts5 = some Token.Lt
                    · rw [if_pos hpeek]
                      cases ts5 with
                      | nil => simp [Parser.peek] at hpeek
                      | cons t4 ts6 =>
                        have ht4 : t4 = Token.Lt := by
                          simpa [Parser.peek] using hpeek
                        subst ht4
                        have h6 : lastEOF ts6 := lastEOF_cons_of_ne h5 (by intro he; cases he)
                        dsimp only
                        split
                        · rename_i heq4
                          exact ExceptInv_error ((parse_comma_list_inv _ Token.Gt true
                            (fun u hu => parse_type_tagF_inv fuel (depth + 1) u hu) ts6 h6).1
                            _ heq4)
                        · rename_i p heq4
                          have h7 : lastEOF p.2 := (parse_comma_list_inv _ Token.Gt true
                            (fun u hu => parse_type_tagF_inv fuel (depth + 1) u hu) ts6 h6).2
                            p.1 p.2 (by rw [heq4])
                          split
                          · rename_i heq5
                            exact ExceptInv_error ((consume_inv Token.Gt p.2 h7).1 _ heq5)
                          · rename_i ts7 heq5
                            have h8 : lastEOF ts7 :=
                              (consume_inv Token.Gt p.2 h7).2 (by intro he; cases he) ts7 heq5
                            simp only [pure, Except.pure]
                            split
                            · rename_i heq6
                              exact ExceptInv_error (from_hex_literal_error heq6)
                            · split
                              · rename_i heq7
                                exact ExceptInv_error (identifier_new_error heq7)
                              · split
                                · rename_i heq8
                                  exact ExceptInv_error (identifier_new_error heq8)
                                · exact ExceptInv_ok h8
                    · rw [if_neg hpeek]
                      simp only [pure, Except.pure]
                      split
                      · rename_i heq6
                        exact ExceptInv_error (from_hex_literal_error heq6)
                      · split
                        · rename_i heq7
                          exact ExceptInv_error (identifier_new_error heq7)
                        · split
                          · rename_i heq8
                            exact ExceptInv_error (identifier_new_error heq8)
                          · exact ExceptInv_ok h5
                  · exact ExceptInv_error (expected_name_ne_oot _)
            · exact ExceptInv_error (expected_name_ne_oot _)
      · exact ExceptInv_error (tt_unexpected_ne_oot _)

theorem lastEOF_append_eof (l : List Token) : lastEOF (l ++ [Token.EOF]) := by
  simp [lastEOF, List.getLast?_concat]

theorem parse_inv {A : Type} (f : List Token → Except String (A × List Token))
    (hf : ∀ ts, lastEOF ts →
      (∀ e, f ts = .error e → e ≠ "out of tokens, this should not happen") ∧
      (∀ x ts2, f ts = .ok (x, ts2) → lastEOF ts2)) :
    ∀ (s : List Char) (e : String), parse s f = .error e →
      e ≠ "out of tokens, this should not happen" := by
  intro s e h
  unfold parse at h
  simp only [Bind.bind, Except.bind] at h
  cases htok : tokenize s with
  | error e2 =>
    rw [htok] at h
    cases error_error h
    rcases tokenizeF_error htok with h3 | h3 | h3 <;> (subst h3; decide)
  | ok toks =>
    rw [htok] at h
    dsimp only at h
    have hlast : lastEOF (toks.filter (fun tok => !tok.is_whitespace) ++ [Token.EOF]) :=
      lastEOF_append_eof _
    cases hf2 : f (toks.filter (fun tok => !tok.is_whitespace) ++ [Token.EOF]) with
    | error e2 =>
      rw [hf2] at h
      cases error_error h
      exact (hf _ hlast).1 _ hf2
    | ok p =>
      rw [hf2] at h
      dsimp only at h
      have hp : lastEOF p.2 := (hf _ hlast).2 p.1 p.2 (by rw [hf2])
      cases hc : Parser.consume Token.EOF p.2 with
      | error e2 =>
        rw [hc] at h
        cases error_error h
        exact (consume_inv Token.EOF p.2 hp).1 _ hc
      | ok ts3 =>
        rw [hc] at h
        exact Except.noConfusion h

/-- Claim C9: for every input string and every public entry point, the
internal-consistency error of `Parser::next` ("out of tokens, this should
not happen") is never the error returned to the caller: every grammar
routine stops at or before the appended end-of-input marker. -/
theorem claim_C9_no_internal_error :
    ∀ (s : String) (e : String),
      (parse_type_tag s = .error e ∨ parse_type_tags s = .error e ∨
       parse_struct_tag s = .error e ∨ parse_transaction_argument s = .error e ∨
       parse_transaction_arguments s = .error e ∨ parse_string_list s = .error e) →
      e ≠ "out of tokens, this should not happen" := by
  intro s e h
  rcases h with h | h | h | h | h | h
  · exact parse_inv _
      (fun ts hts => parse_type_tagF_inv (MAX_TYPE_TAG_NESTING + 1) 0 ts hts) s.data e h
  · exact parse_inv _
      (fun ts hts => parse_comma_list_inv _ .EOF true
        (fun u hu => parse_type_tagF_inv (MAX_TYPE_TAG_NESTING + 1) 0 u hu) ts hts) s.data e h
  · unfold parse_struct_tag at h
    split at h
    · cases error_error h
      exact ne_oot_of_head (by
        rw [data_head_append ("invalid struct tag: " ++ s ++ ", ") _ 'i'
          (data_head_append ("invalid struct tag: " ++ s) ", " 'i'
            (data_head_append "invalid struct tag: " s 'i' rfl))]
        decide)
    · exact Except.noConfusion h
    · cases error_error h
      exact ne_oot_of_head (by
        rw [data_head_append "invalid struct tag: " s 'i' rfl]
        decide)
  · exact parse_inv _ (fun ts hts => parse_transaction_argument_inv ts hts) s.data e h
  · exact parse_inv _
      (fun ts hts => parse_comma_list_inv _ .EOF true
        (fun u hu => parse_transaction_argument_inv u hu) ts hts) s.data e h
  · exact parse_inv _
      (fun ts hts => parse_comma_list_inv _ .EOF true
        (fun u hu => parse_string_inv u hu) ts hts) s.data e h

/-- Claim C9 witness: the empty input makes `parse_type_tag` fail with a
syntax error, which the theorem then separates from the
internal-consistency error. -/
theorem claim_C9_no_internal_error_witness :
    "unexpected token EOF, expected type tag" ≠ "out of tokens, this should not happen" :=
  claim_C9_no_internal_error "" "unexpected token EOF, expected type tag" (Or.inl rfl)

/-! ## Canonical rendering (modelled) and the struct-tag round trip -/

/-- Minimal hex rendering with an explicit fuel (the fuel `n + 1` used by
`nat_to_hex` always suffices, since the value shrinks 16-fold each
step). -/
def nat_to_hexF : Nat → Nat → List Char
  | 0, _ => []
  | fuel + 1, n =>
    if n < 16 then [to_hex_digit n]
    else nat_to_hexF fuel (n / 16) ++ [to_hex_digit (n % 16)]

/-- Modelled from the spec: the minimal lowercase hex rendering of an
address value used by the canonical `Display` of the external collaborator
(`short_str_lossless`): no leading zeros, and `0` for the zero address. -/
def nat_to_hex (n : Nat) : List Char := nat_to_hexF (n + 1) n

mutual

/-- Modelled from the spec: the canonical text rendering (`Display`) of a
type tag: primitive keywords, `vector<...>`, and
`0xADDR::Module::Name<...>` with comma-separated type parameters (the
spec's round-trip comparison is whitespace-insensitive, so no whitespace
is emitted). -/
def render_type_tag : TypeTag → List Char
  | .U8 => ['u', '8']
  | .U64 => ['u', '6', '4']
  | .U128 => ['u', '1', '2', '8']
  | .Bool => ['b', 'o', 'o', 'l']
  | .Address => ['a', 'd', 'd', 'r', 'e', 's', 's']
  | .Signer => ['s', 'i', 'g', 'n', 'e', 'r']
  | .Vector t => ['v', 'e', 'c', 't', 'o', 'r', '<'] ++ render_type_tag t ++ ['>']
  | .Struct a m n ps =>
    ['0', 'x'] ++ nat_to_hex a.value ++ [':', ':'] ++ m.value ++ [':', ':'] ++ n.value ++
      render_ty_args ps

/-- The rendered type-parameter block: empty, or `<p1,p2,...>`. -/
def render_ty_args : List TypeTag → List Char
  | [] => []
  | p :: ps => ['<'] ++ render_type_tag p ++ render_ty_list ps ++ ['>']

/-- The rendered tail of a type-parameter list: `,p` for each element. -/
def render_ty_list : List TypeTag → List Char
  | [] => []
  | p :: ps => [','] ++ render_type_tag p ++ render_ty_list ps

end

/-- Modelled from the spec: the canonical text rendering of a struct
tag. -/
def render_struct_tag (st : StructTag) : List Char :=
  render_type_tag (.Struct st.address st.module st.name st.type_params)

mutual

/-- The token sequence that tokenizing a rendered type tag produces. -/
def tokens_tt : TypeTag → List Token
  | .U8 => [.U8Type]
  | .U64 => [.U64Type]
  | .U128 => [.U128Type]
  | .Bool => [.BoolType]
  | .Address => [.AddressType]
  | .Signer => [.SignerType]
  | .Vector t => .VectorType :: .Lt :: (tokens_tt t ++ [.Gt])
  | .Struct a m n ps =>
    .Address ('0' :: 'x' :: nat_to_hex a.value) :: .ColonColon :: .Name m.value ::
      .ColonColon :: .Name n.value :: tokens_ty_args ps

/-- Token image of a rendered type-parameter block. -/
def tokens_ty_args : List TypeTag → List Token
  | [] => []
  | p :: ps => .Lt :: ((tokens_tt p ++ tokens_ty_list ps) ++ [.Gt])

/-- Token image of the tail of a rendered type-parameter list. -/
def tokens_ty_list : List TypeTag → List Token
  | [] => []
  | p :: ps => .Comma :: (tokens_tt p ++ tokens_ty_list ps)

end

/-- An identifier string as the tokenizer's name branch can produce it:
nonempty, leading ASCII letter, identifier characters throughout, and not
a reserved spelling. -/
def wf_ident (s : List Char) : Prop :=
  (∃ c cs, s = c :: cs ∧ c.isAlpha = true) ∧
  (∀ c ∈ s, is_valid_identifier_char c = true) ∧ s ∉ reserved_spellings

mutual

/-- Wellformedness of a parsed type tag: every identifier inside came from
a `Name` token and every address value fits the collaborator's width. -/
def wf_tt : TypeTag → Prop
  | .Vector t => wf_tt t
  | .Struct a m n ps =>
    a.value < 16 ^ 32 ∧ wf_ident m.value ∧ wf_ident n.value ∧ wf_tt_list ps
  | _ => True

/-- Wellformedness of a list of type tags. -/
def wf_tt_list : List TypeTag → Prop
  | [] => True
  | p :: ps => wf_tt p ∧ wf_tt_list ps

end

mutual

/-- The maximum depth argument reached when parsing this tag starting at
depth 0: the nesting-guard budget the tag needs. -/
def need_depth : TypeTag → Nat
  | .Vector t => need_depth t + 1
  | .Struct _ _ _ [] => 0
  | .Struct _ _ _ (p :: ps) => need_depth_list (p :: ps) + 1
  | _ => 0

/-- Maximum budget over a list of type tags. -/
def need_depth_list : List TypeTag → Nat
  | [] => 0
  | p :: ps => max (need_depth p) (need_depth_list ps)

end

theorem nat_to_hexF_ne_nil : ∀ (fuel n : Nat), 0 < fuel → nat_to_hexF fuel n ≠ []
  | 0, _, h => absurd h (by omega)
  | fuel + 1, n, _ => by
    simp only [nat_to_hexF]
    split
    · simp
    · simp

theorem nat_to_hex_ne_nil (n : Nat) : nat_to_hex n ≠ [] :=
  nat_to_hexF_ne_nil (n + 1) n (by omega)

theorem nat_to_hexF_all_hex :
    ∀ (fuel n : Nat), ∀ c ∈ nat_to_hexF fuel n, is_ascii_hexdigit c = true
  | 0, _ => by simp [nat_to_hexF]
  | fuel + 1, n => by
    simp only [nat_to_hexF]
    split
    · intro c hc
      simp only [List.mem_singleton] at hc
      subst hc
      exact to_hex_digit_is_hexdigit n (by omega)
    · intro c hc
      rcases List.mem_append.mp hc with h2 | h2
      · exact nat_to_hexF_all_hex fuel (n / 16) c h2
      · simp only [List.mem_singleton] at h2
        subst h2
        exact to_hex_digit_is_hexdigit _ (Nat.mod_lt _ (by omega))

theorem nat_of_hex_append (xs ys : List Char) :
    nat_of_hex (xs ++ ys) = ys.foldl (fun acc c => 16 * acc + hex_val c) (nat_of_hex xs) := by
  simp [nat_of_hex, List.foldl_append]

theorem nat_of_hexF_to_hex :
    ∀ (fuel n : Nat), n < fuel → nat_of_hex (nat_to_hexF fuel n) = n
  | 0, n, h => absurd h (by omega)
  | fuel + 1, n, h => by
    simp only [nat_to_hexF]
    split
    · rename_i hlt
      simp [nat_of_hex, hex_val_to_hex_digit n hlt]
    · rename_i hge
      rw [nat_of_hex_append]
      simp only [List.foldl]
      rw [nat_of_hexF_to_hex fuel (n / 16) (by omega)]
      rw [hex_val_to_hex_digit _ (Nat.mod_lt _ (by omega))]
      omega

theorem nat_of_hex_to_hex (n : Nat) : nat_of_hex (nat_to_hex n) = n :=
  nat_of_hexF_to_hex (n + 1) n (by omega)

theorem nat_to_hexF_len :
    ∀ (fuel n k : Nat), n < 16 ^ k → 1 ≤ k → (nat_to_hexF fuel n).length ≤ k
  | 0, _, _, _, _ => by simp [nat_to_hexF]
  | fuel + 1, n, k, hn, hk => by
    simp only [nat_to_hexF]
    split
    · simpa using hk
    · rename_i hge
      have hk2 : 2 ≤ k := by
        by_contra hcon
        have : k = 1 := by omega
        subst this
        simp at hn
        omega
      have : n / 16 < 16 ^ (k - 1) := by
        have h16 : 16 ^ k = 16 ^ (k - 1) * 16 := by
          rw [← Nat.pow_succ]
          congr 1
          omega
        rw [h16] at hn
        exact Nat.div_lt_of_lt_mul (by omega)
      have := nat_to_hexF_len fuel (n / 16) (k - 1) this (by omega)
      simp only [List.length_append, List.length_singleton]
      omega

theorem nat_to_hex_len {n : Nat} (h : n < 16 ^ 32) : (nat_to_hex n).length ≤ 32 :=
  nat_to_hexF_len (n + 1) n 32 h (by omega)

theorem from_hex_literal_ok {s : List Char} {a : AccountAddress}
    (h : from_hex_literal s = .ok a) : a.value < 16 ^ 32 := by
  unfold from_hex_literal at h
  split at h
  · dsimp only at h
    split at h
    · split at h
      · rename_i hlen _
        cases h
        have : ∀ (l : List Char) (acc : Nat) (k : Nat), acc < 16 ^ k →
            l.foldl (fun acc c => 16 * acc + hex_val c) acc < 16 ^ (k + l.length) := by
          intro l
          induction l with
          | nil => intro acc k h2; simpa using h2
          | cons c cs ih =>
            intro acc k h2
            simp only [List.foldl, List.length_cons]
            have hv : hex_val c < 16 := by
              unfold hex_val
              split
              · rename_i hd
                rw [isDigit_iff] at hd
                omega
              · split
                · rename_i hd
                  simp only [Bool.and_eq_true, decide_eq_true_eq] at hd
                  have h1 : 97 ≤ c.toNat := hd.1
                  have h2 : c.toNat ≤ 102 := hd.2
                  omega
                · split
                  · rename_i hd
                    simp only [Bool.and_eq_true, decide_eq_true_eq] at hd
                    have h1 : 65 ≤ c.toNat := hd.1
                    have h2 : c.toNat ≤ 70 := hd.2
                    omega
                  · omega
            have : 16 * acc + hex_val c < 16 ^ (k + 1) := by
              have : 16 ^ (k + 1) = 16 ^ k * 16 := Nat.pow_succ ..
              omega
            have := ih _ (k + 1) this
            simpa [Nat.add_comm, Nat.add_assoc, Nat.add_left_comm] using this
        have h2 := this (List.drop 2 s) 0 0 (by simp)
        simp only [Nat.zero_add] at h2
        calc nat_of_hex (List.drop 2 s) < 16 ^ (List.drop 2 s).length := h2
        _ ≤ 16 ^ 32 := Nat.pow_le_pow_right (by omega) hlen
      · exact Except.noConfusion h
    · exact Except.noConfusion h
  · exact Except.noConfusion h

theorem from_hex_literal_render {v : Nat} (h : v < 16 ^ 32) :
    from_hex_literal ('0' :: 'x' :: nat_to_hex v) = .ok ⟨v⟩ := by
  unfold from_hex_literal
  rw [show List.take 2 ('0' :: 'x' :: nat_to_hex v) = ['0', 'x'] from rfl, if_pos rfl]
  dsimp only
  rw [show List.drop 2 ('0' :: 'x' :: nat_to_hex v) = nat_to_hex v from rfl]
  rw [if_pos (nat_to_hex_len h)]
  rw [if_pos (by
    rw [List.all_eq_true]
    exact fun c hc => nat_to_hexF_all_hex (v + 1) v c hc)]
  rw [nat_of_hex_to_hex v]

theorem identifier_new_ok {s : List Char} {i : Identifier}
    (h : Identifier.new s = .ok i) : i.value = s := by
  unfold Identifier.new at h
  split at h
  · exact Except.noConfusion h
  · split at h
    · cases h
      rfl
    · exact Except.noConfusion h

theorem identifier_new_wf {s : List Char} (h : wf_ident s) : Identifier.new s = .ok ⟨s⟩ := by
  obtain ⟨⟨c, cs, rfl, hca⟩, hall, -⟩ := h
  unfold Identifier.new
  dsimp only
  rw [if_pos]
  simp only [hca, Bool.true_or, Bool.true_and, List.all_eq_true]
  exact hall

/-- What the token-level wellformedness of the tokenizer's output
guarantees: `Name` payloads are identifier runs. -/
def wf_token : Token → Prop
  | .Name s => wf_ident s
  | _ => True

theorem is_valid_of_alpha {c : Char} (h : c.isAlpha = true) :
    is_valid_identifier_char c = true := by
  simp [is_valid_identifier_char, Char.isAlphanum, h]

theorem mem_takeWhile_pred {p : Char → Bool} :
    ∀ {l : List Char} {a : Char}, a ∈ l.takeWhile p → p a = true := by
  intro l
  induction l with
  | nil => intro a ha; simp [List.takeWhile] at ha
  | cons x xs ih =>
    intro a ha
    simp only [List.takeWhile] at ha
    cases hx : p x with
    | false => rw [hx] at ha; simp at ha
    | true =>
      rw [hx] at ha
      rcases List.mem_cons.mp ha with rfl | h2
      · exact hx
      · exact ih h2

theorem name_token_wf {r : List Char} (hhead : ∃ c cs, r = c :: cs ∧ c.isAlpha = true)
    (hchars : ∀ c ∈ r, is_valid_identifier_char c = true) : wf_token (name_token r) := by
  unfold name_token
  split
  · trivial
  split
  · trivial
  split
  · trivial
  split
  · trivial
  split
  · trivial
  split
  · trivial
  split
  · trivial
  split
  · trivial
  split
  · trivial
  rename_i h1 h2 h3 h4 h5 h6 h7 h8 h9
  refine ⟨hhead, hchars, ?_⟩
  simp only [reserved_spellings, List.mem_cons, List.not_mem_nil, or_false, not_or]
  exact ⟨h1, h2, h3, h4, h5, h6, h7, h8, h9⟩

theorem except_map_ok {α β : Type} {f : α → β} {x : Except String α} {y : β}
    (h : x.map f = .ok y) : ∃ a, x = .ok a ∧ y = f a := by
  cases x with
  | error e => simp [Except.map] at h
  | ok a =>
    refine ⟨a, rfl, ?_⟩
    simpa [Except.map] using h.symm

theorem address_scan_ok {t : List Char} {tok : Token} {n : Nat}
    (h : address_scan t = .ok (tok, n)) : ∃ r, tok = .Address r := by
  cases t with
  | nil => exact Except.noConfusion h
  | cons d rest =>
    simp only [address_scan] at h
    split at h
    · cases h
      exact ⟨_, rfl⟩
    · exact Except.noConfusion h

theorem token_of_suffix_ok {num sfx : List Char} {tok : Token} {n : Nat}
    (h : token_of_suffix num sfx = .ok (tok, n)) : wf_token tok := by
  simp only [token_of_suffix] at h
  split at h
  · cases h; trivial
  · split at h
    · cases h; trivial
    · split at h
      · cases h; trivial
      · exact Except.noConfusion h

theorem suffix_loop_ok :
    ∀ {t num acc : List Char} {tok : Token} {n : Nat},
      suffix_loop num acc t = .ok (tok, n) → wf_token tok
  | [], _, _, _, _, h => token_of_suffix_ok h
  | c :: cs, num, acc, tok, n, h => by
    simp only [suffix_loop] at h
    split at h
    · exact suffix_loop_ok h
    · exact token_of_suffix_ok h

theorem digit_loop_ok :
    ∀ {t num : List Char} {tok : Token} {n : Nat},
      digit_loop num t = .ok (tok, n) → wf_token tok
  | [], _, _, _, h => by
    simp only [digit_loop] at h
    cases h
    trivial
  | c :: cs, num, tok, n, h => by
    simp only [digit_loop] at h
    split at h
    · exact digit_loop_ok h
    · split at h
      · exact suffix_loop_ok h
      · cases h; trivial

theorem next_token_wf :
    ∀ {s : List Char} {tok : Token} {n : Nat},
      next_token s = .ok (some (tok, n)) → wf_token tok
  | [], tok, n, h => by
    simp only [next_token] at h
    cases h
  | c :: cs, tok, n, h => by
    simp only [next_token] at h
    split at h
    · cases h; trivial
    split at h
    · cases h; trivial
    split at h
    · cases h; trivial
    split at h
    · split at h
      · cases h; trivial
      · exact Except.noConfusion h
    split at h
    · obtain ⟨⟨tok2, n2⟩, ha, hsome⟩ := except_map_ok h
      obtain ⟨r, rfl⟩ := address_scan_ok ha
      cases hsome
      trivial
    split at h
    · obtain ⟨⟨tok2, n2⟩, ha, hsome⟩ := except_map_ok h
      cases hsome
      exact digit_loop_ok ha
    split at h
    · obtain ⟨r, ha, hsome⟩ := except_map_ok h
      cases hsome
      trivial
    split at h
    · obtain ⟨r, ha, hsome⟩ := except_map_ok h
      cases hsome
      trivial
    split at h
    · cases h; trivial
    split at h
    · rename_i halpha
      cases h
      exact name_token_wf ⟨c, _, rfl, halpha⟩
        (by
          intro x hx
          rcases List.mem_cons.mp hx with rfl | h2
          · exact is_valid_of_alpha halpha
          · exact mem_takeWhile_pred h2)
    · exact Except.noConfusion h

theorem tokenizeF_wf :
    ∀ {fuel : Nat} {s : List Char} {ts : List Token},
      tokenizeF fuel s = .ok ts → ∀ tok ∈ ts, wf_token tok
  | 0, s, ts, h => Except.noConfusion h
  | fuel + 1, s, ts, h => by
    simp only [tokenizeF] at h
    split at h
    · exact Except.noConfusion h
    · cases h
      intro tok h2
      simp at h2
    · rename_i p heq
      obtain ⟨v, hrec, rfl⟩ := except_map_ok h
      intro tok h2
      rcases List.mem_cons.mp h2 with rfl | h3
      · exact next_token_wf heq
      · exact tokenizeF_wf hrec tok h3

theorem token_of_suffix_len {num sfx : List Char} {tok : Token} {n : Nat}
    (h : token_of_suffix num sfx = .ok (tok, n)) : num.length ≤ n := by
  simp only [token_of_suffix] at h
  split at h
  · cases h; omega
  · split at h
    · cases h; omega
    · split at h
      · cases h; omega
      · exact Except.noConfusion h

theorem suffix_loop_len :
    ∀ {t num acc : List Char} {tok : Token} {n : Nat},
      suffix_loop num acc t = .ok (tok, n) → num.length ≤ n
  | [], _, _, _, _, h => token_of_suffix_len h
  | c :: cs, num, acc, tok, n, h => by
    simp only [suffix_loop] at h
    split at h
    · exact suffix_loop_len h
    · exact token_of_suffix_len h

theorem digit_loop_len :
    ∀ {t num : List Char} {tok : Token} {n : Nat},
      digit_loop num t = .ok (tok, n) → num.length ≤ n
  | [], num, tok, n, h => by
    simp only [digit_loop] at h
    cases h
    omega
  | c :: cs, num, tok, n, h => by
    simp only [digit_loop] at h
    split at h
    · have := digit_loop_len h
      simp only [List.length_append, List.length_singleton] at this
      omega
    · split at h
      · exact suffix_loop_len h
      · cases h; omega

theorem address_scan_len {t : List Char} {tok : Token} {n : Nat}
    (h : address_scan t = .ok (tok, n)) : 1 ≤ n := by
  cases t with
  | nil => exact Except.noConfusion h
  | cons d rest =>
    simp only [address_scan] at h
    split at h
    · cases h; simp
    · exact Except.noConfusion h

theorem next_token_some_ne_nil {s : List Char} {tok : Token} {n : Nat}
    (h : next_token s = .ok (some (tok, n))) : 1 ≤ s.length := by
  cases s with
  | nil =>
    simp only [next_token] at h
    exact Option.noConfusion (Except.ok.inj h)
  | cons a l => simp

theorem next_token_len_pos :
    ∀ {s : List Char} {tok : Token} {n : Nat},
      next_token s = .ok (some (tok, n)) → 1 ≤ n
  | [], tok, n, h => by simp only [next_token] at h; cases h
  | c :: cs, tok, n, h => by
    simp only [next_token] at h
    split at h
    · cases h; omega
    split at h
    · cases h; omega
    split at h
    · cases h; omega
    split at h
    · split at h
      · cases h; omega
      · exact Except.noConfusion h
    split at h
    · obtain ⟨⟨tok2, n2⟩, ha, hsome⟩ := except_map_ok h
      cases hsome
      exact address_scan_len ha
    split at h
    · obtain ⟨⟨tok2, n2⟩, ha, hsome⟩ := except_map_ok h
      cases hsome
      have := digit_loop_len ha
      simpa using this
    split at h
    · obtain ⟨r, ha, hsome⟩ := except_map_ok h
      cases hsome
      omega
    split at h
    · obtain ⟨r, ha, hsome⟩ := except_map_ok h
      cases hsome
      omega
    split at h
    · cases h; simp
    split at h
    · cases h; simp
    · exact Except.noConfusion h

theorem tokenizeF_congr :
    ∀ (fuel1 fuel2 : Nat) (s : List Char), s.length < fuel1 → s.length < fuel2 →
      tokenizeF fuel1 s = tokenizeF fuel2 s
  | 0, _, s, h1, _ => absurd h1 (by omega)
  | fuel1 + 1, fuel2, s, h1, h2 => by
    cases fuel2 with
    | zero => omega
    | succ f2 =>
      simp only [tokenizeF]
      cases hnt : next_token s with
      | error e => rfl
      | ok o =>
        cases o with
        | none => rfl
        | some p =>
          obtain ⟨tok, n⟩ := p
          have hn := next_token_len_pos hnt
          have hs := next_token_some_ne_nil hnt
          have hlen : (s.drop n).length = s.length - n := List.length_drop ..
          dsimp only
          rw [tokenizeF_congr fuel1 f2 (s.drop n) (by omega) (by omega)]

theorem tokenize_step {s : List Char} {tok : Token} {n : Nat}
    (h : next_token s = .ok (some (tok, n))) :
    tokenize s = (tokenize (s.drop n)).map (fun v => tok :: v) := by
  have hn := next_token_len_pos h
  have hs : s ≠ [] := by
    intro he
    subst he
    simp only [next_token] at h
    cases h
  have hlen1 : 1 ≤ s.length := by
    cases s with
    | nil => exact absurd rfl hs
    | cons a l => simp
  unfold tokenize
  rw [show tokenizeF (s.length + 1) s = (tokenizeF s.length (s.drop n)).map (fun v => tok :: v)
    from by rw [tokenizeF.eq_def]; dsimp only; rw [h]]
  have hdrop : (s.drop n).length = s.length - n := List.length_drop ..
  rw [tokenizeF_congr s.length ((s.drop n).length + 1) (s.drop n) (by omega) (by omega)]

theorem takeWhile_append_stop (p : Char → Bool) (xs rest : List Char)
    (hall : ∀ x ∈ xs, p x = true)
    (hstop : rest = [] ∨ ∃ c cs, rest = c :: cs ∧ p c = false) :
    List.takeWhile p (xs ++ rest) = xs := by
  induction xs with
  | nil =>
    rcases hstop with rfl | ⟨c, cs, rfl, hc⟩
    · rfl
    · simp [List.takeWhile, hc]
  | cons x xs ih =>
    have hx : p x = true := hall x (by simp)
    simp only [List.cons_append, List.takeWhile, hx]
    change x :: List.takeWhile p (xs ++ rest) = x :: xs
    rw [ih (fun y hy => hall y (by simp [hy]))]

/-- Characters that can legally follow a rendered fragment without
extending its final token: list separators, closers, and the `::`
separator. -/
def boundary_rest (rest : List Char) : Prop :=
  rest = [] ∨ ∃ d ds, rest = d :: ds ∧ (d = ',' ∨ d = '>' ∨ d = ':' ∨ d = '<')

theorem boundary_ident_stop {rest : List Char} (h : boundary_rest rest) :
    rest = [] ∨ ∃ d ds, rest = d :: ds ∧ is_valid_identifier_char d = false ∧ d ≠ '"' := by
  rcases h with rfl | ⟨d, ds, rfl, hd⟩
  · exact Or.inl rfl
  · right
    refine ⟨d, ds, rfl, ?_⟩
    rcases hd with rfl | rfl | rfl | rfl <;> exact ⟨by decide, by decide⟩

theorem boundary_hex_stop {rest : List Char} (h : boundary_rest rest) :
    rest = [] ∨ ∃ d ds, rest = d :: ds ∧ is_ascii_hexdigit d = false := by
  rcases h with rfl | ⟨d, ds, rfl, hd⟩
  · exact Or.inl rfl
  · right
    refine ⟨d, ds, rfl, ?_⟩
    rcases hd with rfl | rfl | rfl | rfl <;> decide

theorem next_token_ident_run (c : Char) (cs rest : List Char) (hca : c.isAlpha = true)
    (hcs : ∀ x ∈ cs, is_valid_identifier_char x = true)
    (hrest : rest = [] ∨ ∃ d ds, rest = d :: ds ∧ is_valid_identifier_char d = false ∧ d ≠ '"') :
    next_token ((c :: cs) ++ rest) = .ok (some (name_token (c :: cs), cs.length + 1)) := by
  have hhead : (cs ++ rest).head? ≠ some '"' := by
    intro hq
    cases cs with
    | nil =>
      rcases hrest with rfl | ⟨d, ds, rfl, -, hd2⟩
      · simp at hq
      · simp only [List.nil_append, List.head?_cons, Option.some.injEq] at hq
        exact hd2 hq
    | cons x xs =>
      simp only [List.cons_append, List.head?_cons, Option.some.injEq] at hq
      have hxv := hcs x (by simp)
      rw [hq] at hxv
      exact absurd hxv (by decide)
  have hb : ¬(c = 'b' ∧ (cs ++ rest).head? = some '"') := fun hand => hhead hand.2
  have hx : ¬(c = 'x' ∧ (cs ++ rest).head? = some '"') := fun hand => hhead hand.2
  rw [List.cons_append, next_token_alpha c (cs ++ rest) hca hb hx]
  rw [takeWhile_append_stop is_valid_identifier_char cs rest hcs
    (by
      rcases hrest with rfl | ⟨d, ds, rfl, hd, -⟩
      · exact Or.inl rfl
      · exact Or.inr ⟨d, ds, rfl, hd⟩)]
  simp

theorem tokenize_ident_step (c : Char) (cs rest : List Char) (hca : c.isAlpha = true)
    (hcs : ∀ x ∈ cs, is_valid_identifier_char x = true)
    (hrest : rest = [] ∨ ∃ d ds, rest = d :: ds ∧ is_valid_identifier_char d = false ∧ d ≠ '"') :
    tokenize ((c :: cs) ++ rest) = (tokenize rest).map (fun v => name_token (c :: cs) :: v) := by
  rw [tokenize_step (next_token_ident_run c cs rest hca hcs hrest)]
  rw [show ((c :: cs) ++ rest).drop (cs.length + 1) = rest from by
    rw [show cs.length + 1 = (c :: cs).length from rfl]
    exact List.drop_left _ _]

theorem tokenize_lt_step (rest : List Char) :
    tokenize ('<' :: rest) = (tokenize rest).map (fun v => Token.Lt :: v) := by
  rw [tokenize_step (show next_token ('<' :: rest) = .ok (some (.Lt, 1)) from rfl)]
  rfl

theorem tokenize_gt_step (rest : List Char) :
    tokenize ('>' :: rest) = (tokenize rest).map (fun v => Token.Gt :: v) := by
  rw [tokenize_step (show next_token ('>' :: rest) = .ok (some (.Gt, 1)) from rfl)]
  rfl

theorem tokenize_comma_step (rest : List Char) :
    tokenize (',' :: rest) = (tokenize rest).map (fun v => Token.Comma :: v) := by
  rw [tokenize_step (show next_token (',' :: rest) = .ok (some (.Comma, 1)) from rfl)]
  rfl

theorem tokenize_coloncolon_step (rest : List Char) :
    tokenize (':' :: ':' :: rest) = (tokenize rest).map (fun v => Token.ColonColon :: v) := by
  rw [tokenize_step
    (show next_token (':' :: ':' :: rest) = .ok (some (.ColonColon, 2)) from rfl)]
  rfl

theorem tokenize_address_step (v : Nat) (rest : List Char) (hrest : boundary_rest rest) :
    tokenize (('0' :: 'x' :: nat_to_hex v) ++ rest) =
      (tokenize rest).map (fun ts => Token.Address ('0' :: 'x' :: nat_to_hex v) :: ts) := by
  have hall : ∀ x ∈ nat_to_hex v, is_ascii_hexdigit x = true := fun x hx =>
    nat_to_hexF_all_hex (v + 1) v x hx
  obtain ⟨d, ds, hds⟩ : ∃ d ds, nat_to_hex v = d :: ds := by
    cases hnn : nat_to_hex v with
    | nil => exact absurd hnn (nat_to_hex_ne_nil v)
    | cons d ds => exact ⟨d, ds, rfl⟩
  have hdhex : is_ascii_hexdigit d = true := hall d (by rw [hds]; simp)
  have hdshex : ∀ x ∈ ds, is_ascii_hexdigit x = true := fun x hx =>
    hall x (by rw [hds]; simp [hx])
  have hnext : next_token (('0' :: 'x' :: nat_to_hex v) ++ rest) =
      .ok (some (.Address ('0' :: 'x' :: nat_to_hex v), (nat_to_hex v).length + 2)) := by
    rw [hds]
    show next_token ('0' :: 'x' :: d :: (ds ++ rest)) = _
    simp only [next_token, if_neg (by decide : ¬('0' = '<')), if_neg (by decide : ¬('0' = '>')),
      if_neg (by decide : ¬('0' = ',')), if_neg (by decide : ¬('0' = ':')),
      if_pos (⟨rfl, Or.inl rfl⟩ : '0' = '0' ∧ (('x' :: d :: (ds ++ rest)).head? = some 'x' ∨
        ('x' :: d :: (ds ++ rest)).head? = some 'X'))]
    show (address_scan (d :: (ds ++ rest))).map some = _
    simp only [address_scan, hdhex, if_true]
    rw [takeWhile_append_stop is_ascii_hexdigit ds rest hdshex (boundary_hex_stop hrest)]
    simp [Except.map]
  rw [tokenize_step hnext]
  rw [show (('0' :: 'x' :: nat_to_hex v) ++ rest).drop ((nat_to_hex v).length + 2) = rest from by
    have hlen2 : ('0' :: 'x' :: nat_to_hex v).length = (nat_to_hex v).length + 2 := by
      simp only [List.length_cons]
    rw [← hlen2]
    exact List.drop_left _ _]

theorem except_map_map {α β γ : Type} (f : α → β) (g : β → γ) (x : Except String α) :
    (x.map f).map g = x.map (fun a => g (f a)) := by
  cases x <;> rfl

theorem except_map_congr {α β : Type} {f g : α → β} (x : Except String α)
    (h : ∀ a, f a = g a) : x.map f = x.map g := by
  cases x with
  | error e => rfl
  | ok a => simp [Except.map, h a]

mutual

theorem tokenize_append_render :
    ∀ (t : TypeTag) (rest : List Char), wf_tt t → boundary_rest rest →
      tokenize (render_type_tag t ++ rest) =
        (tokenize rest).map (fun ts => tokens_tt t ++ ts)
  | .U8, rest, _, hrest => by
    rw [show render_type_tag .U8 ++ rest = ('u' :: ['8']) ++ rest from rfl]
    rw [tokenize_ident_step 'u' ['8'] rest (by decide) (by decide)
      (boundary_ident_stop hrest)]
    rfl
  | .U64, rest, _, hrest => by
    rw [show render_type_tag .U64 ++ rest = ('u' :: ['6', '4']) ++ rest from rfl]
    rw [tokenize_ident_step 'u' ['6', '4'] rest (by decide) (by decide)
      (boundary_ident_stop hrest)]
    rfl
  | .U128, rest, _, hrest => by
    rw [show render_type_tag .U128 ++ rest = ('u' :: ['1', '2', '8']) ++ rest from rfl]
    rw [tokenize_ident_step 'u' ['1', '2', '8'] rest (by decide) (by decide)
      (boundary_ident_stop hrest)]
    rfl
  | .Bool, rest, _, hrest => by
    rw [show render_type_tag .Bool ++ rest = ('b' :: ['o', 'o', 'l']) ++ rest from rfl]
    rw [tokenize_ident_step 'b' ['o', 'o', 'l'] rest (by decide) (by decide)
      (boundary_ident_stop hrest)]
    rfl
  | .Address, rest, _, hrest => by
    rw [show render_type_tag .Address ++ rest =
      ('a' :: ['d', 'd', 'r', 'e', 's', 's']) ++ rest from rfl]
    rw [tokenize_ident_step 'a' ['d', 'd', 'r', 'e', 's', 's'] rest (by decide) (by decide)
      (boundary_ident_stop hrest)]
    rfl
  | .Signer, rest, _, hrest => by
    rw [show render_type_tag .Signer ++ rest =
      ('s' :: ['i', 'g', 'n', 'e', 'r']) ++ rest from rfl]
    rw [tokenize_ident_step 's' ['i', 'g', 'n', 'e', 'r'] rest (by decide) (by decide)
      (boundary_ident_stop hrest)]
    rfl
  | .Vector t, rest, hwf, hrest => by
    rw [show render_type_tag (.Vector t) ++ rest =
      ('v' :: ['e', 'c', 't', 'o', 'r']) ++ ('<' :: (render_type_tag t ++ ('>' :: rest)))
      from by simp [render_type_tag, List.append_assoc]]
    rw [tokenize_ident_step 'v' ['e', 'c', 't', 'o', 'r'] _ (by decide) (by decide)
      (Or.inr ⟨'<', _, rfl, by decide, by decide⟩)]
    rw [tokenize_lt_step]
    rw [tokenize_append_render t ('>' :: rest) hwf (Or.inr ⟨'>', rest, rfl, by decide⟩)]
    rw [tokenize_gt_step]
    rw [except_map_map, except_map_map, except_map_map]
    refine except_map_congr _ (fun a => ?_)
    show Token.VectorType :: Token.Lt :: (tokens_tt t ++ Token.Gt :: a) =
      tokens_tt (.Vector t) ++ a
    simp [tokens_tt, List.append_assoc]
  | .Struct a m n ps, rest, hwf, hrest => by
    obtain ⟨hlt, hm, hn, hps⟩ := hwf
    obtain ⟨⟨cm, csm, hmv, hcm⟩, hmall, hmres⟩ := hm
    obtain ⟨⟨cn, csn, hnv, hcn⟩, hnall, hnres⟩ := hn
    rw [show render_type_tag (.Struct a m n ps) ++ rest =
      ('0' :: 'x' :: nat_to_hex a.value) ++ (':' :: ':' :: (m.value ++ (':' :: ':' ::
        (n.value ++ (render_ty_args ps ++ rest))))) from by
      simp [render_type_tag, List.append_assoc]]
    rw [tokenize_address_step a.value _ (Or.inr ⟨':', _, rfl, by decide⟩)]
    rw [tokenize_coloncolon_step]
    rw [show m.value ++ (':' :: ':' :: (n.value ++ (render_ty_args ps ++ rest))) =
      (cm :: csm) ++ (':' :: ':' :: (n.value ++ (render_ty_args ps ++ rest))) from by
      rw [hmv]]
    rw [tokenize_ident_step cm csm _ hcm
      (fun x hx => hmall x (by rw [hmv]; simp [hx]))
      (Or.inr ⟨':', _, rfl, by decide, by decide⟩)]
    rw [tokenize_coloncolon_step]
    have hargs : tokenize (render_ty_args ps ++ rest) =
        (tokenize rest).map (fun ts => tokens_ty_args ps ++ ts) := by
      cases ps with
      | nil =>
        rw [show render_ty_args [] ++ rest = rest from by simp [render_ty_args]]
        rw [show tokens_ty_args [] = [] from rfl]
        cases htr : tokenize rest with
        | error e => rfl
        | ok v => simp [Except.map]
      | cons p ps2 =>
        rw [show render_ty_args (p :: ps2) ++ rest =
          '<' :: (render_type_tag p ++ (render_ty_list ps2 ++ ('>' :: rest))) from by
          simp [render_ty_args, List.append_assoc]]
        rw [tokenize_lt_step]
        rw [tokenize_append_render p (render_ty_list ps2 ++ ('>' :: rest)) hps.1 (by
          cases ps2 with
          | nil => exact Or.inr ⟨'>', rest, by simp [render_ty_list], by decide⟩
          | cons q qs =>
            exact Or.inr ⟨',', render_type_tag q ++ (render_ty_list qs ++ ('>' :: rest)),
              by simp [render_ty_list, List.append_assoc], by decide⟩)]
        rw [tokenize_append_render_list ps2 ('>' :: rest) hps.2
          (Or.inr ⟨'>', rest, rfl, by decide⟩)]
        rw [tokenize_gt_step]
        rw [except_map_map, except_map_map, except_map_map]
        refine except_map_congr _ (fun v => ?_)
        show Token.Lt :: (tokens_tt p ++ (tokens_ty_list ps2 ++ (Token.Gt :: v))) =
          tokens_ty_args (p :: ps2) ++ v
        simp [tokens_ty_args, List.append_assoc]
    rw [show n.value ++ (render_ty_args ps ++ rest) =
      (cn :: csn) ++ (render_ty_args ps ++ rest) from by rw [hnv]]
    rw [tokenize_ident_step cn csn _ hcn
      (fun x hx => hnall x (by rw [hnv]; simp [hx]))
      (by
        cases ps with
        | nil =>
          rcases hrest with rfl | ⟨d, ds, rfl, hd⟩
          · exact Or.inl (by simp [render_ty_args])
          · refine Or.inr ⟨d, ds, by simp [render_ty_args], ?_, ?_⟩
            · rcases hd with rfl | rfl | rfl | rfl <;> decide
            · rcases hd with rfl | rfl | rfl | rfl <;> decide
        | cons p ps2 =>
          exact Or.inr ⟨'<', render_type_tag p ++ (render_ty_list ps2 ++ ('>' :: rest)),
            by simp [render_ty_args, List.append_assoc], by decide, by decide⟩)]
    rw [hargs]
    rw [except_map_map, except_map_map, except_map_map, except_map_map, except_map_map]
    refine except_map_congr _ (fun v => ?_)
    show Token.Address ('0' :: 'x' :: nat_to_hex a.value) :: Token.ColonColon ::
      name_token (cm :: csm) :: Token.ColonColon :: name_token (cn :: csn) ::
        (tokens_ty_args ps ++ v) = tokens_tt (.Struct a m n ps) ++ v
    rw [show name_token (cm :: csm) = Token.Name m.value from by
      rw [← hmv]; exact name_token_not_reserved m.value (hmv ▸ hmres)]
    rw [show name_token (cn :: csn) = Token.Name n.value from by
      rw [← hnv]; exact name_token_not_reserved n.value (hnv ▸ hnres)]
    simp [tokens_tt, List.append_assoc]

theorem tokenize_append_render_list :
    ∀ (ps : List TypeTag) (rest : List Char), wf_tt_list ps → boundary_rest rest →
      tokenize (render_ty_list ps ++ rest) =
        (tokenize rest).map (fun ts => tokens_ty_list ps ++ ts)
  | [], rest, _, _ => by
    rw [show render_ty_list [] ++ rest = rest from by simp [render_ty_list]]
    rw [show tokens_ty_list [] = [] from rfl]
    cases htr : tokenize rest with
    | error e => rfl
    | ok v => simp [Except.map]
  | p :: ps, rest, hwf, hrest => by
    rw [show render_ty_list (p :: ps) ++ rest =
      ',' :: (render_type_tag p ++ (render_ty_list ps ++ rest)) from by
      simp [render_ty_list, List.append_assoc]]
    rw [tokenize_comma_step]
    rw [tokenize_append_render p (render_ty_list ps ++ rest) hwf.1 (by
      cases ps with
      | nil =>
        rcases hrest with rfl | ⟨d, ds, rfl, hd⟩
        · exact Or.inl (by simp [render_ty_list])
        · exact Or.inr ⟨d, ds, by simp [render_ty_list], hd⟩
      | cons q qs =>
        exact Or.inr ⟨',', render_type_tag q ++ (render_ty_list qs ++ rest),
          by simp [render_ty_list, List.append_assoc], by decide⟩)]
    rw [tokenize_append_render_list ps rest hwf.2 hrest]
    rw [except_map_map, except_map_map]
    refine except_map_congr _ (fun v => ?_)
    show Token.Comma :: (tokens_tt p ++ (tokens_ty_list ps ++ v)) =
      tokens_ty_list (p :: ps) ++ v
    simp [tokens_ty_list, List.append_assoc]

end

theorem tokens_tt_head :
    ∀ t : TypeTag, ∃ tok ts0, tokens_tt t = tok :: ts0 ∧ tok ≠ Token.Gt ∧ tok ≠ Token.Comma ∧
      tok ≠ Token.Lt
  | .U8 => ⟨.U8Type, _, rfl, by decide, by decide, by decide⟩
  | .U64 => ⟨.U64Type, _, rfl, by decide, by decide, by decide⟩
  | .U128 => ⟨.U128Type, _, rfl, by decide, by decide, by decide⟩
  | .Bool => ⟨.BoolType, _, rfl, by decide, by decide, by decide⟩
  | .Address => ⟨.AddressType, _, rfl, by decide, by decide, by decide⟩
  | .Signer => ⟨.SignerType, _, rfl, by decide, by decide, by decide⟩
  | .Vector t => ⟨.VectorType, _, rfl, by decide, by decide, by decide⟩
  | .Struct a m n ps => ⟨.Address ('0' :: 'x' :: nat_to_hex a.value), _, rfl,
      fun h => Token.noConfusion h, fun h => Token.noConfusion h, fun h => Token.noConfusion h⟩

theorem tokens_ty_list_len : ∀ ps : List TypeTag, ps.length ≤ (tokens_ty_list ps).length
  | [] => by simp [tokens_ty_list]
  | p :: ps => by
    have := tokens_ty_list_len ps
    simp only [tokens_ty_list, List.length_cons, List.length_append]
    omega

theorem need_depth_le_list :
    ∀ (ps : List TypeTag) (p : TypeTag), p ∈ ps → need_depth p ≤ need_depth_list ps
  | [], p, h => by simp at h
  | q :: qs, p, h => by
    rcases List.mem_cons.mp h with rfl | h2
    · simp [need_depth_list, Nat.le_max_left]
    · have := need_depth_le_list qs p h2
      simp only [need_depth_list]
      omega

theorem consume_cons (tok : Token) (ts : List Token) :
    Parser.consume tok (tok :: ts) = .ok ts := by
  simp [Parser.consume, Parser.next, Bind.bind, Except.bind]

set_option maxHeartbeats 1600000 in
mutual

theorem parse_tokens_tt :
    ∀ (t : TypeTag) (rest : List Token) (fuel depth : Nat), wf_tt t →
      depth + need_depth t < MAX_TYPE_TAG_NESTING → need_depth t < fuel →
      rest.head? ≠ some Token.Lt →
      Parser.parse_type_tagF fuel depth (tokens_tt t ++ rest) = .ok (t, rest)
  | .U8, rest, fuel, depth, hwf, hd, hf, hr => by
    cases fuel with
    | zero => omega
    | succ f =>
      rw [show tokens_tt .U8 ++ rest = Token.U8Type :: rest from rfl]
      rw [Parser.parse_type_tagF.eq_def]
      dsimp only
      rw [if_neg (by omega)]
      simp only [Parser.next, Bind.bind, Except.bind]
  | .U64, rest, fuel, depth, hwf, hd, hf, hr => by
    cases fuel with
    | zero => omega
    | succ f =>
      rw [show tokens_tt .U64 ++ rest = Token.U64Type :: rest from rfl]
      rw [Parser.parse_type_tagF.eq_def]
      dsimp only
      rw [if_neg (by omega)]
      simp only [Parser.next, Bind.bind, Except.bind]
  | .U128, rest, fuel, depth, hwf, hd, hf, hr => by
    cases fuel with
    | zero => omega
    | succ f =>
      rw [show tokens_tt .U128 ++ rest = Token.U128Type :: rest from rfl]
      rw [Parser.parse_type_tagF.eq_def]
      dsimp only
      rw [if_neg (by omega)]
      simp only [Parser.next, Bind.bind, Except.bind]
  | .Bool, rest, fuel, depth, hwf, hd, hf, hr => by
    cases fuel with
    | zero => omega
    | succ f =>
      rw [show tokens_tt .Bool ++ rest = Token.BoolType :: rest from rfl]
      rw [Parser.parse_type_tagF.eq_def]
      dsimp only
      rw [if_neg (by omega)]
      simp only [Parser.next, Bind.bind, Except.bind]
  | .Address, rest, fuel, depth, hwf, hd, hf, hr => by
    cases fuel with
    | zero => omega
    | succ f =>
      rw [show tokens_tt .Address ++ rest = Token.AddressType :: rest from rfl]
      rw [Parser.parse_type_tagF.eq_def]
      dsimp only
      rw [if_neg (by omega)]
      simp only [Parser.next, Bind.bind, Except.bind]
  | .Signer, rest, fuel, depth, hwf, hd, hf, hr => by
    cases fuel with
    | zero => omega
    | succ f =>
      rw [show tokens_tt .Signer ++ rest = Token.SignerType :: rest from rfl]
      rw [Parser.parse_type_tagF.eq_def]
      dsimp only
      rw [if_neg (by omega)]
      simp only [Parser.next, Bind.bind, Except.bind]
  | .Vector t, rest, fuel, depth, hwf, hd, hf, hr => by
    cases fuel with
    | zero => omega
    | succ f =>
      rw [show tokens_tt (.Vector t) ++ rest =
        Token.VectorType :: Token.Lt :: (tokens_tt t ++ (Token.Gt :: rest)) from by
        simp [tokens_tt, List.append_assoc]]
      rw [Parser.parse_type_tagF.eq_def]
      dsimp only
      rw [if_neg (by omega)]
      simp only [Parser.next, Bind.bind, Except.bind]
      rw [consume_cons Token.Lt]
      dsimp only
      rw [parse_tokens_tt t (Token.Gt :: rest) f (depth + 1) hwf
        (by simp only [need_depth] at hd; omega)
        (by simp only [need_depth] at hf; omega)
        (by simp)]
      dsimp only
      rw [consume_cons Token.Gt]
  | .Struct a m n [], rest, fuel, depth, hwf, hd, hf, hr => by
    obtain ⟨hlt, hm, hn, hps⟩ := hwf
    cases fuel with
    | zero => omega
    | succ f =>
      rw [show tokens_tt (.Struct a m n []) ++ rest =
        Token.Address ('0' :: 'x' :: nat_to_hex a.value) :: Token.ColonColon ::
          Token.Name m.value :: Token.ColonColon :: Token.Name n.value :: rest from by
        simp [tokens_tt, tokens_ty_args]]
      rw [Parser.parse_type_tagF.eq_def]
      dsimp only
      rw [if_neg (by omega)]
      simp only [Parser.next, Bind.bind, Except.bind]
      rw [consume_cons Token.ColonColon]
      dsimp only
      rw [consume_cons Token.ColonColon]
      dsimp only
      rw [if_neg (by
        intro hpk
        exact hr (by simpa [Parser.peek] using hpk))]
      simp only [pure, Except.pure]
      rw [from_hex_literal_render hlt]
      dsimp only
      rw [identifier_new_wf hm]
      dsimp only
      rw [identifier_new_wf hn]
  | .Struct a m n (p :: ps2), rest, fuel, depth, hwf, hd, hf, hr => by
    obtain ⟨hlt, hm, hn, hps⟩ := hwf
    cases fuel with
    | zero => omega
    | succ f =>
      rw [show tokens_tt (.Struct a m n (p :: ps2)) ++ rest =
        Token.Address ('0' :: 'x' :: nat_to_hex a.value) :: Token.ColonColon ::
          Token.Name m.value :: Token.ColonColon :: Token.Name n.value ::
            (tokens_ty_args (p :: ps2) ++ rest) from by simp [tokens_tt, List.append_assoc]]
      rw [Parser.parse_type_tagF.eq_def]
      dsimp only
      rw [if_neg (by omega)]
      simp only [Parser.next, Bind.bind, Except.bind]
      rw [consume_cons Token.ColonColon]
      dsimp only
      rw [consume_cons Token.ColonColon]
      dsimp only
      rw [show tokens_ty_args (p :: ps2) ++ rest =
        Token.Lt :: (tokens_tt p ++ (tokens_ty_list ps2 ++ (Token.Gt :: rest))) from by
        simp [tokens_ty_args, List.append_assoc]]
      rw [if_pos (by simp [Parser.peek])]
      simp only [Parser.next, Bind.bind, Except.bind]
      rw [show Parser.parse_comma_list (Parser.parse_type_tagF f (depth + 1)) Token.Gt true
        (tokens_tt p ++ (tokens_ty_list ps2 ++ (Token.Gt :: rest))) =
          .ok (p :: ps2, Token.Gt :: rest) from by
        unfold Parser.parse_comma_list
        obtain ⟨tok0, ts0, htok0, hgt0, hcm0, hlt0⟩ := tokens_tt_head p
        rw [if_neg (by
          rw [htok0]
          simp only [List.cons_append, Parser.peek, List.head?_cons, Option.some.injEq]
          exact hgt0)]
        refine parse_tokens_list p ps2 rest f depth _ ⟨hps.1, hps.2⟩ ?_ ?_ ?_
        · intro q hq
          have := need_depth_le_list (p :: ps2) q hq
          simp only [need_depth] at hd
          omega
        · intro q hq
          have := need_depth_le_list (p :: ps2) q hq
          simp only [need_depth] at hf
          omega
        · have h1 := tokens_ty_list_len ps2
          simp only [List.length_append, List.length_cons]
          omega]
      dsimp only
      rw [consume_cons Token.Gt]
      dsimp only
      simp only [pure, Except.pure]
      rw [from_hex_literal_render hlt]
      dsimp only
      rw [identifier_new_wf hm]
      dsimp only
      rw [identifier_new_wf hn]
termination_by t rest fuel depth => sizeOf t
decreasing_by
  all_goals simp_wf
  all_goals omega

theorem parse_tokens_list :
    ∀ (p : TypeTag) (ps : List TypeTag) (rest : List Token) (fuel depth fuelL : Nat),
      wf_tt p ∧ wf_tt_list ps →
      (∀ q ∈ p :: ps, depth + 1 + need_depth q < MAX_TYPE_TAG_NESTING) →
      (∀ q ∈ p :: ps, need_depth q < fuel) →
      (p :: ps).length ≤ fuelL →
      Parser.parse_comma_list_loop fuelL (Parser.parse_type_tagF fuel (depth + 1))
        Token.Gt true (tokens_tt p ++ (tokens_ty_list ps ++ (Token.Gt :: rest))) =
        .ok (p :: ps, Token.Gt :: rest)
  | p, [], rest, fuel, depth, fuelL, hwf, hdep, hfu, hlen => by
    cases fuelL with
    | zero => simp at hlen
    | succ fl =>
      rw [Parser.parse_comma_list_loop.eq_def]
      dsimp only
      simp only [Bind.bind, Except.bind]
      rw [parse_tokens_tt p (tokens_ty_list [] ++ (Token.Gt :: rest)) fuel (depth + 1)
        hwf.1 (hdep p (by simp)) (hfu p (by simp)) (by simp [tokens_ty_list])]
      dsimp only
      rw [show tokens_ty_list [] ++ (Token.Gt :: rest) = Token.Gt :: rest from by
        simp [tokens_ty_list]]
      rw [if_pos (by simp [Parser.peek])]
  | p, q :: qs, rest, fuel, depth, fuelL, hwf, hdep, hfu, hlen => by
    cases fuelL with
    | zero => simp at hlen
    | succ fl =>
      rw [Parser.parse_comma_list_loop.eq_def]
      dsimp only
      simp only [Bind.bind, Except.bind]
      rw [parse_tokens_tt p (tokens_ty_list (q :: qs) ++ (Token.Gt :: rest)) fuel (depth + 1)
        hwf.1 (hdep p (by simp)) (hfu p (by simp)) (by simp [tokens_ty_list])]
      dsimp only
      rw [show tokens_ty_list (q :: qs) ++ (Token.Gt :: rest) =
        Token.Comma :: (tokens_tt q ++ (tokens_ty_list qs ++ (Token.Gt :: rest))) from by
        simp [tokens_ty_list, List.append_assoc]]
      rw [if_neg (by simp [Parser.peek])]
      rw [consume_cons Token.Comma]
      dsimp only
      obtain ⟨tok0, ts0, htok0, hgt0, hcm0, hlt0⟩ := tokens_tt_head q
      rw [if_neg (by
        rintro ⟨hpk, -⟩
        rw [htok0] at hpk
        simp only [List.cons_append, Parser.peek, List.head?_cons, Option.some.injEq] at hpk
        exact hgt0 hpk)]
      rw [parse_tokens_list q qs rest fuel depth fl ⟨hwf.2.1, hwf.2.2⟩
        (fun x hx => hdep x (List.mem_cons_of_mem p hx))
        (fun x hx => hfu x (List.mem_cons_of_mem p hx))
        (by simp at hlen ⊢; omega)]
      rfl
termination_by p ps rest fuel depth fuelL => sizeOf p + sizeOf ps
decreasing_by
  all_goals simp_wf
  all_goals try omega
  all_goals
    (have h0 : 0 < sizeOf ps := by cases ps <;> simp_arith
     omega)

end

theorem need_depth_list_lt :
    ∀ (ps : List TypeTag) (C : Nat), 0 < C → (∀ x ∈ ps, need_depth x < C) →
      need_depth_list ps < C
  | [], C, hC, _ => by simpa [need_depth_list] using hC
  | p :: ps, C, hC, h => by
    have h1 := h p (by simp)
    have h2 := need_depth_list_lt ps C hC (fun x hx => h x (by simp [hx]))
    simp only [need_depth_list]
    omega

theorem next_ok_wf {ts : List Token} {t : Token} {ts2 : List Token}
    (hts : ∀ tok ∈ ts, wf_token tok) (h : Parser.next ts = .ok (t, ts2)) :
    wf_token t ∧ ∀ tok ∈ ts2, wf_token tok := by
  cases ts with
  | nil => exact Except.noConfusion h
  | cons u us =>
    simp only [Parser.next] at h
    cases h
    exact ⟨hts _ (List.mem_cons_self _ _),
      fun tok htok => hts tok (List.mem_cons_of_mem _ htok)⟩

theorem consume_ok_wf {tok : Token} {ts ts2 : List Token}
    (hts : ∀ tok2 ∈ ts, wf_token tok2) (h : Parser.consume tok ts = .ok ts2) :
    ∀ tok2 ∈ ts2, wf_token tok2 := by
  cases ts with
  | nil => exact Except.noConfusion h
  | cons u us =>
    simp only [Parser.consume, Parser.next, Bind.bind, Except.bind] at h
    split at h
    · cases h
      exact fun tok2 htok2 => hts tok2 (by simp [htok2])
    · exact Except.noConfusion h

theorem parse_comma_list_loop_all {R : Type}
    (f : List Token → Except String (R × List Token)) (end_token : Token) (allow : Bool)
    (P : R → Prop)
    (hf : ∀ ts, (∀ tok ∈ ts, wf_token tok) → ∀ x ts2, f ts = .ok (x, ts2) →
      P x ∧ ∀ tok ∈ ts2, wf_token tok) :
    ∀ (fuel : Nat) (ts : List Token), (∀ tok ∈ ts, wf_token tok) →
      ∀ xs ts2, Parser.parse_comma_list_loop fuel f end_token allow ts = .ok (xs, ts2) →
        (∀ x ∈ xs, P x) ∧ ∀ tok ∈ ts2, wf_token tok
  | 0, ts, hts, xs, ts2, h => Except.noConfusion h
  | fuel + 1, ts, hts, xs, ts2, h => by
    simp only [Parser.parse_comma_list_loop, Bind.bind, Except.bind] at h
    split at h
    · exact Except.noConfusion h
    · rename_i p heq
      have hp := hf ts hts p.1 p.2 (by rw [heq])
      split at h
      · cases h
        exact ⟨fun x hx => by rcases List.mem_singleton.mp hx with rfl; exact hp.1, hp.2⟩
      · split at h
        · exact Except.noConfusion h
        · rename_i ts3 heq2
          have hts3 : ∀ tok ∈ ts3, wf_token tok := consume_ok_wf hp.2 heq2
          split at h
          · cases h
            exact ⟨fun x hx => by rcases List.mem_singleton.mp hx with rfl; exact hp.1, hts3⟩
          · cases hrec : Parser.parse_comma_list_loop fuel f end_token allow ts3 with
            | error e2 => rw [hrec] at h; exact Except.noConfusion h
            | ok q =>
              rw [hrec] at h
              simp only [Except.map] at h
              cases h
              have := parse_comma_list_loop_all f end_token allow P hf fuel ts3 hts3 q.1 q.2
                (by rw [hrec])
              exact ⟨fun x hx => by
                rcases List.mem_cons.mp hx with rfl | hx2
                · exact hp.1
                · exact this.1 x hx2, this.2⟩

theorem parse_comma_list_all {R : Type}
    (f : List Token → Except String (R × List Token)) (end_token : Token) (allow : Bool)
    (P : R → Prop)
    (hf : ∀ ts, (∀ tok ∈ ts, wf_token tok) → ∀ x ts2, f ts = .ok (x, ts2) →
      P x ∧ ∀ tok ∈ ts2, wf_token tok)
    (ts : List Token) (hts : ∀ tok ∈ ts, wf_token tok) :
    ∀ xs ts2, Parser.parse_comma_list f end_token allow ts = .ok (xs, ts2) →
      (∀ x ∈ xs, P x) ∧ ∀ tok ∈ ts2, wf_token tok := by
  intro xs ts2 h
  unfold Parser.parse_comma_list at h
  split at h
  · cases h
    exact ⟨by simp, hts⟩
  · exact parse_comma_list_loop_all f end_token allow P hf (ts.length + 1) ts hts xs ts2 h

theorem wf_tt_list_of_forall : ∀ (ps : List TypeTag), (∀ x ∈ ps, wf_tt x) → wf_tt_list ps
  | [], _ => trivial
  | p :: ps, h =>
    ⟨h p (List.mem_cons_self _ _),
     wf_tt_list_of_forall ps (fun x hx => h x (List.mem_cons_of_mem _ hx))⟩

/-- Every successful `parse_type_tag` run on wellformed tokens returns a
wellformed tag whose nesting budget respects the guard, and leaves
wellformed tokens behind. -/
theorem parse_type_tagF_wf :
    ∀ (fuel depth : Nat) (ts : List Token), (∀ tok ∈ ts, wf_token tok) →
      ∀ t ts2, Parser.parse_type_tagF fuel depth ts = .ok (t, ts2) →
        wf_tt t ∧ depth + need_depth t < MAX_TYPE_TAG_NESTING ∧ ∀ tok ∈ ts2, wf_token tok
  | 0, depth, ts, _, t, ts2, h => by
    rw [Parser.parse_type_tagF.eq_def] at h
    dsimp only at h
    split at h
    · exact Except.noConfusion h
    · exact Except.noConfusion h
  | fuel + 1, depth, ts, hts, t0, ts0, h => by
    rw [Parser.parse_type_tagF.eq_def] at h
    dsimp only at h
    split at h
    · exact Except.noConfusion h
    rename_i hguard
    cases ts with
    | nil =>
      simp only [Parser.next, Bind.bind, Except.bind] at h
      exact Except.noConfusion h
    | cons t ts1 =>
      simp only [Parser.next, Bind.bind, Except.bind] at h
      have hts1 : ∀ tok ∈ ts1, wf_token tok :=
        fun tok htok => hts tok (List.mem_cons_of_mem _ htok)
      split at h
      · cases h
        exact ⟨trivial, by simp only [need_depth]; omega, hts1⟩
      · cases h
        exact ⟨trivial, by simp only [need_depth]; omega, hts1⟩
      · cases h
        exact ⟨trivial, by simp only [need_depth]; omega, hts1⟩
      · cases h
        exact ⟨trivial, by simp only [need_depth]; omega, hts1⟩
      · cases h
        exact ⟨trivial, by simp only [need_depth]; omega, hts1⟩
      · cases h
        exact ⟨trivial, by simp only [need_depth]; omega, hts1⟩
      · -- VectorType
        split at h
        · exact Except.noConfusion h
        · rename_i ts2 heq
          have hts2 : ∀ tok ∈ ts2, wf_token tok := consume_ok_wf hts1 heq
          split at h
          · exact Except.noConfusion h
          · rename_i p heq2
            have hp := parse_type_tagF_wf fuel (depth + 1) ts2 hts2 p.1 p.2 (by rw [heq2])
            split at h
            · exact Except.noConfusion h
            · rename_i ts3 heq3
              cases h
              refine ⟨hp.1, ?_, consume_ok_wf hp.2.2 heq3⟩
              have := hp.2.1
              simp only [need_depth]
              omega
      · -- Address addr
        rename_i addr
        split at h
        · exact Except.noConfusion h
        · rename_i ts2 heq
          have hts2 : ∀ tok ∈ ts2, wf_token tok := consume_ok_wf hts1 heq
          cases ts2 with
          | nil => exact Except.noConfusion h
          | cons t2 ts3 =>
            dsimp only at h
            have hts3 : ∀ tok ∈ ts3, wf_token tok :=
              fun tok htok => hts2 tok (List.mem_cons_of_mem _ htok)
            split at h
            · -- Name module
              rename_i module
              have hmod : wf_ident module := hts2 (.Name module) (List.mem_cons_self _ _)
              split at h
              · exact Except.noConfusion h
              · rename_i ts4 heq3
                have hts4 : ∀ tok ∈ ts4, wf_token tok := consume_ok_wf hts3 heq3
                cases ts4 with
                | nil => exact Except.noConfusion h
                | cons t3 ts5 =>
                  dsimp only at h
                  have hts5 : ∀ tok ∈ ts5, wf_token tok :=
                    fun tok htok => hts4 tok (List.mem_cons_of_mem _ htok)
                  split at h
                  · -- Name name
                    rename_i name
                    have hname : wf_ident name := hts4 (.Name name) (List.mem_cons_self _ _)
                    split at h
                    · -- peek = Lt
                      rename_i hpeek
                      cases ts5 with
                      | nil => exact Option.noConfusion hpeek
                      | cons t4 ts6 =>
                        have ht4 : t4 = Token.Lt := by
                          simpa [Parser.peek] using hpeek
                        subst ht4
                        have hts6 : ∀ tok ∈ ts6, wf_token tok :=
                          fun tok htok => hts5 tok (List.mem_cons_of_mem _ htok)
                        simp only [Parser.next, Bind.bind, Except.bind] at h
                        split at h
                        · exact Except.noConfusion h
                        · rename_i q heq4
                          have hq := parse_comma_list_all
                            (Parser.parse_type_tagF fuel (depth + 1)) Token.Gt true
                            (fun x => wf_tt x ∧ depth + 1 + need_depth x < MAX_TYPE_TAG_NESTING)
                            (fun u hu x u2 hx =>
                              have hr := parse_type_tagF_wf fuel (depth + 1) u hu x u2 hx
                              ⟨⟨hr.1, hr.2.1⟩, hr.2.2⟩)
                            ts6 hts6 q.1 q.2 (by rw [heq4])
                          split at h
                          · exact Except.noConfusion h
                          · rename_i ts7 heq5
                            have hts7 : ∀ tok ∈ ts7, wf_token tok :=
                              consume_ok_wf hq.2 heq5
                            simp only [pure, Except.pure, Bind.bind, Except.bind] at h
                            split at h
                            · exact Except.noConfusion h
                            · rename_i a heqA
                              split at h
                              · exact Except.noConfusion h
                              · rename_i m heqM
                                split at h
                                · exact Except.noConfusion h
                                · rename_i n heqN
                                  cases h
                                  refine ⟨⟨from_hex_literal_ok heqA,
                                    (identifier_new_ok heqM).symm ▸ hmod,
                                    (identifier_new_ok heqN).symm ▸ hname,
                                    wf_tt_list_of_forall q.1 (fun x hx => (hq.1 x hx).1)⟩,
                                    ?_, hts7⟩
                                  cases hargs : q.1 with
                                  | nil =>
                                    simp only [need_depth]
                                    omega
                                  | cons p ps2 =>
                                    simp only [need_depth]
                                    have hC : depth + 1 + need_depth p <
                                        MAX_TYPE_TAG_NESTING :=
                                      (hq.1 p (hargs ▸ List.mem_cons_self _ _)).2
                                    have hlt := need_depth_list_lt (p :: ps2)
                                      (MAX_TYPE_TAG_NESTING - (depth + 1))
                                      (by omega)
                                      (fun x hx =>
                                        have := (hq.1 x (hargs ▸ hx)).2
                                        by omega)
                                    omega
                    · -- peek ≠ Lt
                      have hpure : (pure (([] : List TypeTag), ts5) :
                          Except String (List TypeTag × List Token)) =
                          Except.ok ([], ts5) := rfl
                      rw [hpure] at h
                      dsimp only at h
                      split at h
                      · exact Except.noConfusion h
                      · rename_i a heqA
                        split at h
                        · exact Except.noConfusion h
                        · rename_i m heqM
                          split at h
                          · exact Except.noConfusion h
                          · rename_i n heqN
                            cases h
                            refine ⟨⟨from_hex_literal_ok heqA,
                              (identifier_new_ok heqM).symm ▸ hmod,
                              (identifier_new_ok heqN).symm ▸ hname,
                              trivial⟩, ?_, hts5⟩
                            simp only [need_depth]
                            omega
                  · exact Except.noConfusion h
            · exact Except.noConfusion h
      · exact Except.noConfusion h

mutual

theorem tokens_tt_no_ws :
    ∀ (t : TypeTag) (tok : Token), tok ∈ tokens_tt t → tok.is_whitespace = false
  | .U8, tok, h => by rcases List.mem_singleton.mp h with rfl; rfl
  | .U64, tok, h => by rcases List.mem_singleton.mp h with rfl; rfl
  | .U128, tok, h => by rcases List.mem_singleton.mp h with rfl; rfl
  | .Bool, tok, h => by rcases List.mem_singleton.mp h with rfl; rfl
  | .Address, tok, h => by rcases List.mem_singleton.mp h with rfl; rfl
  | .Signer, tok, h => by rcases List.mem_singleton.mp h with rfl; rfl
  | .Vector t, tok, h => by
    rw [show tokens_tt (.Vector t) =
      Token.VectorType :: Token.Lt :: (tokens_tt t ++ [Token.Gt]) from rfl] at h
    rcases List.mem_cons.mp h with rfl | h
    · rfl
    rcases List.mem_cons.mp h with rfl | h
    · rfl
    rcases List.mem_append.mp h with h | h
    · exact tokens_tt_no_ws t tok h
    · rcases List.mem_singleton.mp h with rfl; rfl
  | .Struct a m n ps, tok, h => by
    rw [show tokens_tt (.Struct a m n ps) =
      Token.Address ('0' :: 'x' :: nat_to_hex a.value) :: Token.ColonColon ::
        Token.Name m.value :: Token.ColonColon :: Token.Name n.value ::
        tokens_ty_args ps from rfl] at h
    rcases List.mem_cons.mp h with rfl | h
    · rfl
    rcases List.mem_cons.mp h with rfl | h
    · rfl
    rcases List.mem_cons.mp h with rfl | h
    · rfl
    rcases List.mem_cons.mp h with rfl | h
    · rfl
    rcases List.mem_cons.mp h with rfl | h
    · rfl
    exact tokens_ty_args_no_ws ps tok h

theorem tokens_ty_args_no_ws :
    ∀ (ps : List TypeTag) (tok : Token), tok ∈ tokens_ty_args ps → tok.is_whitespace = false
  | [], tok, h => by
    rw [show tokens_ty_args ([] : List TypeTag) = [] from rfl] at h
    exact absurd h (List.not_mem_nil _)
  | p :: ps, tok, h => by
    rw [show tokens_ty_args (p :: ps) =
      Token.Lt :: ((tokens_tt p ++ tokens_ty_list ps) ++ [Token.Gt]) from rfl] at h
    rcases List.mem_cons.mp h with rfl | h
    · rfl
    rcases List.mem_append.mp h with h | h
    · rcases List.mem_append.mp h with h | h
      · exact tokens_tt_no_ws p tok h
      · exact tokens_ty_list_no_ws ps tok h
    · rcases List.mem_singleton.mp h with rfl; rfl

theorem tokens_ty_list_no_ws :
    ∀ (ps : List TypeTag) (tok : Token), tok ∈ tokens_ty_list ps → tok.is_whitespace = false
  | [], tok, h => by
    rw [show tokens_ty_list ([] : List TypeTag) = [] from rfl] at h
    exact absurd h (List.not_mem_nil _)
  | p :: ps, tok, h => by
    rw [show tokens_ty_list (p :: ps) =
      Token.Comma :: (tokens_tt p ++ tokens_ty_list ps) from rfl] at h
    rcases List.mem_cons.mp h with rfl | h
    · rfl
    rcases List.mem_append.mp h with h | h
    · exact tokens_tt_no_ws p tok h
    · exact tokens_ty_list_no_ws ps tok h

end

/-- Unpacking a successful run of the `parse` entry wrapper. -/
theorem parse_ok_elim {A : Type} (f : List Token → Except String (A × List Token))
    (s : List Char) (x : A) (h : parse s f = .ok x) :
    ∃ toks res rest, tokenize s = .ok toks ∧
      f (toks.filter (fun tok => !tok.is_whitespace) ++ [Token.EOF]) = .ok (res, rest) ∧
      res = x := by
  unfold parse at h
  simp only [Bind.bind, Except.bind] at h
  cases htok : tokenize s with
  | error e => rw [htok] at h; exact Except.noConfusion h
  | ok toks =>
    rw [htok] at h
    dsimp only at h
    cases hf : f (toks.filter (fun tok => !tok.is_whitespace) ++ [Token.EOF]) with
    | error e => rw [hf] at h; exact Except.noConfusion h
    | ok p =>
      rw [hf] at h
      dsimp only at h
      cases hc : Parser.consume Token.EOF p.2 with
      | error e => rw [hc] at h; exact Except.noConfusion h
      | ok ts3 =>
        rw [hc] at h
        dsimp only at h
        cases h
        exact ⟨toks, p.1, p.2, rfl, by rw [hf], rfl⟩

/-- Running the grammar entry on the canonical rendering of a wellformed,
depth-respecting type tag reproduces the tag. -/
theorem parse_render_ok (t : TypeTag) (hwf : wf_tt t)
    (hd : need_depth t < MAX_TYPE_TAG_NESTING) :
    parse (render_type_tag t) (Parser.parse_type_tagF (MAX_TYPE_TAG_NESTING + 1) 0) =
      .ok t := by
  have htokr : tokenize (render_type_tag t) = .ok (tokens_tt t) := by
    have h1 := tokenize_append_render t [] hwf (Or.inl rfl)
    rw [List.append_nil] at h1
    have h2 : (tokenize ([] : List Char)).map (fun ts => tokens_tt t ++ ts) =
        .ok (tokens_tt t ++ []) := rfl
    rw [h1, h2, List.append_nil]
  have hfil : (tokens_tt t).filter (fun tok => !tok.is_whitespace) = tokens_tt t :=
    List.filter_eq_self.mpr
      (fun tok htok => by rw [tokens_tt_no_ws t tok htok]; rfl)
  have hparse := parse_tokens_tt t [Token.EOF] (MAX_TYPE_TAG_NESTING + 1) 0 hwf
    (by omega) (by omega)
    (by intro hx; exact Token.noConfusion (Option.some.inj hx))
  unfold parse
  simp only [Bind.bind, Except.bind]
  rw [htokr]
  dsimp only
  rw [hfil, hparse]
  dsimp only
  rw [consume_cons Token.EOF []]

/-- Claim C2 counterexample: the input `0X1::M::S` is valid struct-tag text
with no whitespace at all, yet the canonical rendering of its parse,
`0x1::M::S`, also whitespace-free, differs from the input text: the
tokenizer normalizes the address prefix `0X` to `0x`, so rendering the
parsed StructTag does not reproduce every valid input even under
whitespace-insensitive comparison. -/
theorem claim_C2_counterexample :
    parse_struct_tag "0X1::M::S" = .ok ⟨⟨1⟩, ⟨['M']⟩, ⟨['S']⟩, []⟩ ∧
    (∀ c ∈ "0X1::M::S".data, is_ascii_whitespace c = false) ∧
    (∀ c ∈ render_struct_tag ⟨⟨1⟩, ⟨['M']⟩, ⟨['S']⟩, []⟩, is_ascii_whitespace c = false) ∧
    render_struct_tag ⟨⟨1⟩, ⟨['M']⟩, ⟨['S']⟩, []⟩ ≠ "0X1::M::S".data :=
  ⟨rfl, by decide, by decide, by decide⟩

/-- Claim C2 (amended): rendering the StructTag returned by a successful
parse_struct_tag run and re-parsing the rendered text yields the same
StructTag — the render/re-parse round trip holds for every parseable
input, even though textual equality with the original input can fail on
non-canonically written addresses. -/
theorem claim_C2_round_trip :
    ∀ (s : String) (st : StructTag), parse_struct_tag s = .ok st →
      parse_struct_tag (String.mk (render_struct_tag st)) = .ok st := by
  intro s st h
  unfold parse_struct_tag at h
  split at h
  · exact Except.noConfusion h
  · rename_i a m n tp heq
    cases h
    obtain ⟨toks, res, rest, htok, hf, hres⟩ := parse_ok_elim _ _ _ heq
    subst hres
    have hwts : ∀ tok ∈ toks.filter (fun tok => !tok.is_whitespace) ++ [Token.EOF],
        wf_token tok := by
      intro tok htokm
      rcases List.mem_append.mp htokm with hm | hm
      · exact tokenizeF_wf htok tok (List.mem_of_mem_filter hm)
      · rcases List.mem_singleton.mp hm with rfl
        trivial
    have hwf := parse_type_tagF_wf (MAX_TYPE_TAG_NESTING + 1) 0 _ hwts _ _ hf
    unfold parse_struct_tag
    have hmain : parse (String.mk (render_struct_tag ⟨a, m, n, tp⟩)).data
        (Parser.parse_type_tagF (MAX_TYPE_TAG_NESTING + 1) 0) =
        .ok (TypeTag.Struct a m n tp) :=
      parse_render_ok _ hwf.1
        (by
          have h2 := hwf.2.1
          show need_depth (TypeTag.Struct a m n tp) < MAX_TYPE_TAG_NESTING
          omega)
    rw [hmain]
  · exact Except.noConfusion h

theorem claim_C2_round_trip_witness :
    parse_struct_tag "0x1::M::S" = .ok ⟨⟨1⟩, ⟨['M']⟩, ⟨['S']⟩, []⟩ ∧
    parse_struct_tag (String.mk (render_struct_tag ⟨⟨1⟩, ⟨['M']⟩, ⟨['S']⟩, []⟩)) =
      .ok ⟨⟨1⟩, ⟨['M']⟩, ⟨['S']⟩, []⟩ :=
  ⟨rfl, claim_C2_round_trip "0x1::M::S" ⟨⟨1⟩, ⟨['M']⟩, ⟨['S']⟩, []⟩ rfl⟩

/-- A chain of `k` nested `vector<...>` applications around `u64`, the
shape of the source's nesting tests. -/
def vec_chain : Nat → List Char
  | 0 => ['u', '6', '4']
  | k + 1 => ['v', 'e', 'c', 't', 'o', 'r', '<'] ++ vec_chain k ++ ['>']

/-- The type tag such a chain denotes. -/
def vec_tt : Nat → TypeTag
  | 0 => .U64
  | k + 1 => .Vector (vec_tt k)

theorem vec_chain_render : ∀ k, vec_chain k = render_type_tag (vec_tt k)
  | 0 => rfl
  | k + 1 => by
    rw [show vec_chain (k + 1) =
      ['v', 'e', 'c', 't', 'o', 'r', '<'] ++ vec_chain k ++ ['>'] from rfl,
      vec_chain_render k]
    rfl

theorem vec_tt_wf : ∀ k, wf_tt (vec_tt k)
  | 0 => trivial
  | k + 1 => vec_tt_wf k

theorem vec_tt_need : ∀ k, need_depth (vec_tt k) = k
  | 0 => rfl
  | k + 1 => by
    rw [show vec_tt (k + 1) = .Vector (vec_tt k) from rfl,
      show need_depth (TypeTag.Vector (vec_tt k)) = need_depth (vec_tt k) + 1 from rfl,
      vec_tt_need k]

/-- Below the nesting limit, a vector chain parses to the corresponding
nested vector tag. -/
theorem parse_vec_chain_ok (k : Nat) (hk : k < MAX_TYPE_TAG_NESTING) :
    parse_type_tag (String.mk (vec_chain k)) = .ok (vec_tt k) := by
  show parse (vec_chain k) (Parser.parse_type_tagF (MAX_TYPE_TAG_NESTING + 1) 0) =
    .ok (vec_tt k)
  rw [vec_chain_render k]
  exact parse_render_ok (vec_tt k) (vec_tt_wf k) (by rw [vec_tt_need k]; exact hk)

/-- Claim C1 counterexample: the claim asserts that a chain of exactly
`MAX_TYPE_TAG_NESTING` nested `vector<...>` applications parses
successfully, but such a chain fails: its innermost `parse_type_tag` call
runs at depth `MAX_TYPE_TAG_NESTING`, where the guard
`depth >= MAX_TYPE_TAG_NESTING` fires, whatever the value of the
constant; with the modelled value 14 this chain is the source's own
failing nesting test. -/
theorem claim_C1_counterexample :
    parse_type_tag (String.mk (vec_chain MAX_TYPE_TAG_NESTING)) =
      .error ("Exceeded TypeTag nesting limit during parsing: " ++
        Nat.repr MAX_TYPE_TAG_NESTING) := rfl

/-- Claim C1 (amended): a `vector<...>` chain of `k` nested applications
parses successfully for every `k` strictly below `MAX_TYPE_TAG_NESTING`
and fails with the nesting-limit error at `k = MAX_TYPE_TAG_NESTING`,
because the innermost `parse_type_tag` call of a chain of `k` vectors
runs at depth `k`; `parse_type_tag` invoked at any depth that has reached
the maximum fails immediately with the nesting-limit error, regardless of
fuel and input.  The boundary agrees with all three nesting tests of the
source: the 7-vector chain parses, the 14-vector chain fails, and the
valid struct tag whose innermost call runs at depth 12 parses. -/
theorem claim_C1_nesting_boundary :
    (∀ k, k < MAX_TYPE_TAG_NESTING →
      parse_type_tag (String.mk (vec_chain k)) = .ok (vec_tt k)) ∧
    parse_type_tag (String.mk (vec_chain MAX_TYPE_TAG_NESTING)) =
      .error ("Exceeded TypeTag nesting limit during parsing: " ++
        Nat.repr MAX_TYPE_TAG_NESTING) ∧
    String.mk (vec_chain 7) =
      "vector<vector<vector<vector<vector<vector<vector<u64>>>>>>>" ∧
    parse_type_tag "vector<vector<vector<vector<vector<vector<vector<u64>>>>>>>" =
      .ok (.Vector (.Vector (.Vector (.Vector (.Vector (.Vector (.Vector .U64))))))) ∧
    String.mk (vec_chain 14) =
      "vector<vector<vector<vector<vector<vector<vector<vector<vector<vector<vector<vector<vector<vector<u64>>>>>>>>>>>>>>" ∧
    parse_type_tag "vector<vector<vector<vector<vector<vector<vector<vector<vector<vector<vector<vector<vector<vector<u64>>>>>>>>>>>>>>" =
      .error "Exceeded TypeTag nesting limit during parsing: 14" ∧
    parse_struct_tag "0x1::Diem::Diem<vector<vector<vector<vector<vector<0x1::XDX::XDX<vector<vector<vector<0x1::XDX::XDX<vector<u64>>>>>>>>>>>>" =
      .ok ⟨⟨1⟩, ⟨"Diem".data⟩, ⟨"Diem".data⟩,
        [.Vector (.Vector (.Vector (.Vector (.Vector
          (.Struct ⟨1⟩ ⟨"XDX".data⟩ ⟨"XDX".data⟩
            [.Vector (.Vector (.Vector
              (.Struct ⟨1⟩ ⟨"XDX".data⟩ ⟨"XDX".data⟩ [.Vector .U64])))])))))]⟩ ∧
    (∀ fuel depth ts, MAX_TYPE_TAG_NESTING ≤ depth →
      Parser.parse_type_tagF fuel depth ts =
        .error ("Exceeded TypeTag nesting limit during parsing: " ++ Nat.repr depth)) := by
  refine ⟨parse_vec_chain_ok, rfl, rfl, rfl, rfl, rfl, rfl, fun fuel depth ts h => ?_⟩
  simp [Parser.parse_type_tagF.eq_def, h]

/-- Claim C1 witness: the quantified success half at the concrete chain of
3 vectors, and the quantified at-depth failure at depth 20 on a concrete
token list. -/
theorem claim_C1_nesting_boundary_witness :
    parse_type_tag (String.mk (vec_chain 3)) = .ok (vec_tt 3) ∧
    Parser.parse_type_tagF 1 20 [Token.U8Type] =
      .error ("Exceeded TypeTag nesting limit during parsing: " ++ Nat.repr 20) :=
  ⟨claim_C1_nesting_boundary.1 3 (by decide),
   claim_C1_nesting_boundary.2.2.2.2.2.2.2 1 20 [Token.U8Type] (by decide)⟩
